import Mathlib

/-!
PLUMED neighbour list, vessel engine and alpha-helix windows: a verification
development

Shallow embedding of `src/NeighborList.cpp`, of
`src/vesselbase/ActionWithVessel.{h,cpp}` and of the constructor loop of
`src/ColvarAlphaRMSD.cpp`.

Conventions of the embedding.

* A `std::vector<T>` is the list of its `size()` elements.  Reading `v[k]`
  yields `v[k]?`: there is no element to read at a position `k ≥ size()`, so
  a function that performs such a read has no result (`none`).  A store
  `v[k] = x` is `List.set`: for `k ≥ size()` the store lies outside the
  container and changes none of its elements nor its size.
* `unsigned` values are natural numbers; where the source does arithmetic on
  an `unsigned` value that is data (a maximum index plus one, a running
  buffer size, a strided task counter) the result is reduced modulo `2 ^ 32`.
  Loop counters that run over the elements of a container are plain naturals.
* `double` values are taken in a linearly ordered type `R`; the geometry
  (`Vector`, `Pbc`, `delta`, `modulo`) is an external collaborator and is a
  parameter.  In the vessel engine `R` is a commutative monoid or a semiring:
  sums and products are exact.
-/

namespace PLMD

/-- Range of the C++ type `unsigned`. -/
def UNSIGNED_RANGE : Nat := 2 ^ 32

/-- Counted loop: runs `body j` for `n` consecutive values of `j`, threading
the state; stops with `none` as soon as one iteration has no result. -/
def forLoopAux {σ : Type} (body : Nat → σ → Option σ) : Nat → Nat → σ → Option σ
  | 0, _, s => some s
  | n + 1, j, s => (body j s).bind (forLoopAux body n (j + 1))

/-- The loop `for (j = lo; j < hi; ++j) body`. -/
def forLoop {σ : Type} (lo hi : Nat) (body : Nat → σ → Option σ) (s : σ) : Option σ :=
  forLoopAux body (hi - lo) lo s

/-- The call `v.resize(n, x)` of a `std::vector`: keeps the first `n` elements
and pads with `x` up to length `n`. -/
def vresize {α : Type} (v : List α) (n : Nat) (x : α) : List α :=
  v.take n ++ List.replicate (n - v.length) x

/-- The expression `*max_element(l.begin(), l.end())`: the largest element; on
an empty range the iterator returned is `end()` and there is nothing to
dereference. -/
def max_element : List Nat → Option Nat
  | [] => none
  | x :: xs => some (xs.foldl max x)

/-- The statement `neighbors_[i].push_back(a)`. -/
def push_back_at (nb : List (List Nat)) (i a : Nat) : Option (List (List Nat)) :=
  match nb[i]? with
  | some row => some (nb.set i (row ++ [a]))
  | none => none

/-- The loop `for (i = k; i < request.size(); ++i) indexes_[request[i]] = i`,
written over the elements of `request` that remain from position `k` on.  A
store at a position `request[i] ≥ indexes_.size()` lies outside the vector and
changes none of its elements. -/
def indexLoop : List Nat → Nat → List Nat → List Nat
  | [], _, indexes => indexes
  | a :: rest, k, indexes => indexLoop rest (k + 1) (indexes.set a k)

/-- The geometry used by the neighbour list (`Vector.h`, `Pbc.h`): the plain
displacement `delta`, the periodic displacement `Pbc::distance` and the norm
`Vector::modulo`. -/
structure Geometry (V P R : Type) where
  /-- plain displacement between two positions -/
  delta : V → V → V
  /-- displacement under the periodic box -/
  pbcDistance : P → V → V → V
  /-- norm of a displacement -/
  modulo : V → R

/-- The data members of `class NeighborList`. -/
structure NeighborList (P R : Type) where
  /-- owners -/
  list0_ : List Nat
  /-- candidates -/
  list1_ : List Nat
  /-- cutoff -/
  distance_ : R
  /-- periodic box, if any -/
  pbc_ : Option P
  /-- rebuild interval -/
  stride_ : Nat
  /-- reverse index: global atom index to position in the last request -/
  indexes_ : List Nat
  /-- per owner, the global atom indices of its neighbours -/
  neighbors_ : List (List Nat)

namespace NeighborList

variable {V P R : Type}

/-- The constructor `NeighborList::NeighborList` (the type already bears that
name here). -/
def construct (list0 list1 : List Nat) (distance : R) (stride : Nat)
    (pbc : Option P) : Option (NeighborList P R) := do
  -- `if(stride_<2){ }` has an empty body
  let imax0 ← max_element list0
  let imax1 ← max_element list1
  let indexes := vresize [] ((max imax0 imax1 + 1) % UNSIGNED_RANGE) 0
  let neighbors := vresize [] list0.length []
  let neighbors ← forLoop 0 list0.length (fun i nb =>
    forLoop 0 list1.length (fun j nb => do
      let a ← list1[j]?
      push_back_at nb i a) nb) neighbors
  pure { list0_ := list0, list1_ := list1, distance_ := distance, pbc_ := pbc,
         stride_ := stride, indexes_ := indexes, neighbors_ := neighbors }

/-- The method `NeighborList::getFullList`: the new state and the returned
request. -/
def getFullList (nl : NeighborList P R) : NeighborList P R × List Nat :=
  let indexes : List Nat := []                       -- indexes_.clear()
  let request := nl.list0_ ++ nl.list1_
  let indexes := indexLoop request 0 indexes
  ({ nl with indexes_ := indexes }, request)

/-- The value tested by `update` for one pair of positions:
`distance.modulo()` of the periodic or plain displacement. -/
def pairValue (g : Geometry V P R) (pbc : Option P) (p q : V) : R :=
  match pbc with
  | some box => g.modulo (g.pbcDistance box p q)
  | none => g.modulo (g.delta p q)

/-- The method `NeighborList::update`: the new state and the returned
request. -/
def update [LinearOrder R] [Zero R] (g : Geometry V P R) (nl : NeighborList P R)
    (positions : List V) : Option (NeighborList P R × List Nat) := do
  let n0 := nl.list0_.length
  let n1 := nl.list1_.length
  let request := nl.list0_
  let neighbors : List (List Nat) := vresize [] n0 []  -- clear(); resize(n0)
  -- `if(positions.size()!=list0_.size()+list1_.size()){ }` has an empty body
  let (neighbors, request) ← forLoop 0 n0 (fun i (st : List (List Nat) × List Nat) => do
    let nb ← forLoop n0 (n0 + n1) (fun j nb => do
      let pi ← positions[i]?
      let pj ← positions[j]?
      let value := pairValue g nl.pbc_ pi pj
      if 0 < value ∧ value ≤ nl.distance_ then do
        let a ← nl.list1_[j - n0]?
        push_back_at nb i a
      else pure nb) st.1
    let row ← nb[i]?
    pure (nb, st.2 ++ row)) (neighbors, request)
  let indexes : List Nat := []                       -- indexes_.clear()
  let indexes := indexLoop request 0 indexes
  pure ({ nl with neighbors_ := neighbors, indexes_ := indexes }, request)

/-- The method `NeighborList::getStride`. -/
def getStride (nl : NeighborList P R) : Nat := nl.stride_

/-- The method `NeighborList::getNumberOfNeighbors`. -/
def getNumberOfNeighbors (nl : NeighborList P R) (index : Nat) : Option Nat :=
  (nl.neighbors_[index]?).map List.length

/-- The method `NeighborList::getNeighbors`. -/
def getNeighbors (nl : NeighborList P R) (index : Nat) : Option (List Nat) := do
  let n ← nl.getNumberOfNeighbors index
  forLoop 0 n (fun i neigh => do
    let row ← nl.neighbors_[index]?
    let iatom ← row[i]?
    let p ← nl.indexes_[iatom]?
    pure (neigh ++ [p])) []

/-- The method `NeighborList::getNumberOfAtoms`. -/
def getNumberOfAtoms (nl : NeighborList P R) : Nat := nl.neighbors_.length

/-- One-shot scan over all owner and candidate pairs: for the owner at
position `p`, the candidates of `list1`, in order, whose value `d` against
`p` satisfies `0 < d ≤ cutoff`.  The owners are the first `n0` positions, the
candidates the positions that follow. -/
def directScan [LinearOrder R] [Zero R] (g : Geometry V P R) (pbc : Option P)
    (cutoff : R) (n0 : Nat) (list1 : List Nat) (positions : List V) : List (List Nat) :=
  (positions.take n0).map (fun p =>
    ((list1.zip (positions.drop n0)).filter
      (fun aq => decide (0 < pairValue g pbc p aq.2 ∧ pairValue g pbc p aq.2 ≤ cutoff))).map
      Prod.fst)

/-- The neighbour counts are limited by `list1`: there is one neighbour set
per owner and none has more than `|list1|` entries. -/
def countsBounded (nl : NeighborList P R) : Prop :=
  nl.getNumberOfAtoms = nl.list0_.length ∧
  ∀ i, i < nl.list0_.length →
    ∃ k, nl.getNumberOfNeighbors i = some k ∧ k ≤ nl.list1_.length

end NeighborList

/-- Geometry on a line with integer coordinates, used for concrete runs. -/
def lineGeometry : Geometry Int Unit Int where
  delta := fun p q => q - p
  pbcDistance := fun _ p q => q - p
  modulo := fun v => (v.natAbs : Int)

/-- Owners 0 and 3 with candidates 1 and 2 on a line, cutoff 2, no box, in
the state the constructor leaves. -/
def lineList : NeighborList Unit Int :=
  { list0_ := [0, 3], list1_ := [1, 2], distance_ := 2, pbc_ := none, stride_ := 5,
    indexes_ := [0, 0, 0, 0], neighbors_ := [[1, 2], [1, 2]] }

/-- Positions for `lineList`: owners at 0 and 10, candidates at 1 and 2. -/
def linePositions : List Int := [0, 10, 1, 2]

/-- The positions `linePositions` followed by one coordinate too many. -/
def longPositions : List Int := [0, 10, 1, 2, 7]

/-- The statement `v[k] += x` on a `std::vector`: a position `k ≥ v.size()`
addresses no element. -/
def vaddAt {R : Type} [Add R] (k : Nat) (x : R) (v : List R) : List R :=
  match v[k]? with
  | some y => v.set k (y + x)
  | none => v

/-- The loop `for (i = k; i < ders.size(); ++i) target[off+i] += df*ders[i]`,
the common shape of the two derivative transfers, over the derivatives that
remain from position `k` on. -/
def scaledLoop {R : Type} [Add R] [Mul R] (off : Nat) (df : R) :
    List R → Nat → List R → List R
  | [], _, target => target
  | d :: rest, k, target => scaledLoop off df rest (k + 1) (vaddAt (off + k) (df * d) target)

/-- What a transfer of `ders` with sensitivity `df` at offset `off` adds to
element `e` of its target: `df * ders[e - off]` when `e - off` is a position
of `ders`, zero otherwise. -/
def scaledAt {R : Type} [Zero R] [Mul R] (df : R) (ders : List R) (off e : Nat) : R :=
  if off ≤ e then
    match ders[e - off]? with
    | some d => df * d
    | none => 0
  else 0

/-- Modelled from the spec: the part of `class Value` (`core/Value.h`, not
among the sources) that `transferDerivatives` writes, the derivatives of an
output value. -/
structure Value (R : Type) where
  /-- derivatives of the output value -/
  derivatives : List R

/-- Modelled from the spec: `Value::addDerivative(i, x)`, accumulation
`output_derivative += x` on derivative `i` (`core/Value.h` is not among the
sources). -/
def Value.addDerivative {R : Type} [Add R] (v : Value R) (i : Nat) (x : R) : Value R :=
  { v with derivatives := vaddAt i x v.derivatives }

namespace vesselbase

/-- Modelled from the spec: the members of `class Vessel` that
`ActionWithVessel` uses (`Vessel.h` is not among the sources): the slice
`[bufstart, bufstart + bufsize)` of the shared buffer and the state `self` of
the concrete accumulator. -/
structure Vessel (α : Type) where
  /-- first buffer element of the slice -/
  bufstart : Nat
  /-- number of buffer elements of the slice -/
  bufsize : Nat
  /-- state of the concrete vessel -/
  self : α

/-- Modelled from the spec: `Vessel::addToBufferElement(i, x)`, the only
mutation primitive on the shared buffer (`Vessel.h` is not among the sources):
element `i` of the vessel's slice, that is element `bufstart + i` of the
buffer, `+= x`. -/
def Vessel.addToBufferElement {α R : Type} [Add R] (v : Vessel α) (i : Nat) (x : R)
    (buffer : List R) : List R :=
  vaddAt (v.bufstart + i) x buffer

/-- The part of the object a task source writes while it performs a task: its
own members (`derived`), the element value and the element derivatives (through
`setElementValue` and `addElementDerivative`). -/
structure TaskSide (σ R : Type) where
  /-- members of the class derived from `ActionWithVessel` -/
  derived : σ
  /-- the member `thisval` -/
  thisval : R
  /-- the member `derivatives` -/
  derivatives : List R

/-- The data members of `class ActionWithVessel`, with the members of the
derived class in `derived`. -/
structure ActionWithVessel (σ α R : Type) where
  /-- set by `addVessel` -/
  read : Bool
  /-- the flag SERIAL -/
  serial : Bool
  /-- the tolerance TOL -/
  tolerance : R
  /-- value of the current element -/
  thisval : R
  /-- derivatives of the current element -/
  derivatives : List R
  /-- the shared buffer -/
  buffer : List R
  /-- the attached vessels, in registration order -/
  functions : List (Vessel α)
  /-- members of the derived class -/
  derived : σ

/-- The code `runAllTasks` and `resizeFunctions` call but `ActionWithVessel`
does not define: the communicator, the virtual functions of the derived class
and those of the vessels (modelled from the spec, sections 4.2 and 6: a task
source writes its value and derivatives, a vessel writes its own state and the
buffer, `resize` sets the vessel's `bufsize`, `finish` sets outputs). -/
structure Callbacks (σ α R : Type) where
  /-- the call `comm.Get_size()` -/
  Get_size : Nat
  /-- the call `comm.Get_rank()` -/
  Get_rank : Nat
  /-- the call `comm.Sum(&buffer[0], buffer.size())`: the buffer after the sum -/
  Sum : List R → List R
  /-- whether `plumed_dbg_massert` is compiled in -/
  debug : Bool
  /-- the pure virtual `performTask(j)`: the skip signal and what it wrote -/
  performTask : Nat → TaskSide σ R → Bool × TaskSide σ R
  /-- the pure virtual `deactivate_task()` -/
  deactivate_task : σ → σ
  /-- the virtual `isPossibleToSkip()` -/
  isPossibleToSkip : σ → Bool
  /-- an override of the virtual `getNumberOfDerivatives(i)`, if there is one -/
  numberOfDerivativesOfTask : Option (Nat → σ → Nat)
  /-- the pure virtual `getNumberOfDerivatives()` -/
  getNumberOfDerivatives : σ → Nat
  /-- the virtual `Vessel::resize()`: the new `bufsize` and vessel state -/
  resize : Vessel α → σ → Nat × α
  /-- the virtual `Vessel::calculate(i, tolerance)`: whether the task
  contributes, the vessel state and the buffer it leaves -/
  calculate : Vessel α → Nat → R → TaskSide σ R → List R → Bool × α × List R
  /-- the virtual `Vessel::finish(tolerance)`: the vessel state and the
  outputs (in the derived class) it leaves -/
  finish : Vessel α → R → σ → List R → α × σ

/-- What one pass does, in order. -/
inductive Event where
  /-- the call `performTask(i)` -/
  | performTask (i : Nat)
  /-- the call `deactivate_task()` while task `i` is current -/
  | deactivate_task (i : Nat)
  /-- the call `functions[j]->calculate(i, tolerance)` -/
  | calculate (j i : Nat)
  /-- the call `comm.Sum` -/
  | Sum
  /-- the call `functions[j]->finish(tolerance)` -/
  | finish (j : Nat)
  deriving DecidableEq

/-- How a pass can end without a result. -/
inductive Fault where
  /-- a failed `plumed_massert` or `plumed_dbg_massert` -/
  | assertion (msg : String)
  /-- the model ran out of steps -/
  | outOfFuel
  deriving DecidableEq

namespace ActionWithVessel

variable {σ α R : Type}

/-- The loop of `resizeFunctions` over the vessels that remain, with the
running `bufsize`: the resized vessels and the final `bufsize`. -/
def resizeLoop (cb : Callbacks σ α R) (derived : σ) :
    List (Vessel α) → Nat → List (Vessel α) × Nat
  | [], bufsize => ([], bufsize)
  | v :: rest, bufsize =>
    let v1 : Vessel α := { v with bufstart := bufsize }          -- bufstart=bufsize
    let r := cb.resize v1 derived                                 -- resize()
    let v2 : Vessel α := { v1 with bufsize := r.1, self := r.2 }
    let out := resizeLoop cb derived rest ((bufsize + v2.bufsize) % UNSIGNED_RANGE)
    (v2 :: out.1, out.2)

/-- The method `ActionWithVessel::resizeFunctions`. -/
def resizeFunctions [Zero R] (cb : Callbacks σ α R) (a : ActionWithVessel σ α R) :
    ActionWithVessel σ α R :=
  let out := resizeLoop cb a.derived a.functions 0
  { a with functions := out.1,
           derivatives := vresize a.derivatives (cb.getNumberOfDerivatives a.derived) 0,
           buffer := vresize a.buffer out.2 0 }

/-- The virtual `getNumberOfDerivatives(i)`: `derivatives.size()` unless the
derived class overrides it. -/
def getNumberOfDerivatives (cb : Callbacks σ α R) (a : ActionWithVessel σ α R)
    (i : Nat) : Nat :=
  match cb.numberOfDerivativesOfTask with
  | some f => f i a.derived
  | none => a.derivatives.length

/-- The task side of the object. -/
def taskSide (a : ActionWithVessel σ α R) : TaskSide σ R :=
  { derived := a.derived, thisval := a.thisval, derivatives := a.derivatives }

/-- The loop `for (j = k; j < functions.size(); ++j)
if (functions[j]->calculate(i, tolerance)) keep = true`, for `n` iterations from
`j = k`. -/
def calculateLoop (cb : Callbacks σ α R) (i : Nat) :
    Nat → Nat → ActionWithVessel σ α R × Bool × List Event →
      ActionWithVessel σ α R × Bool × List Event
  | 0, _, st => st
  | n + 1, j, (a, keep, tr) =>
    match a.functions[j]? with
    | none => (a, keep, tr)
    | some v =>
      let r := cb.calculate v i a.tolerance a.taskSide a.buffer
      let a1 : ActionWithVessel σ α R :=
        { a with functions := a.functions.set j { v with self := r.2.1 }, buffer := r.2.2 }
      calculateLoop cb i n (j + 1) (a1, (if r.1 then true else keep), tr ++ [Event.calculate j i])

/-- The loop `for (j = k; j < n; ++j) derivatives[j] = 0.0`, for `n`
iterations from `j = k`. -/
def clearLoop [Zero R] : Nat → Nat → List R → List R
  | 0, _, der => der
  | n + 1, j, der => clearLoop n (j + 1) (der.set j 0)

/-- The task loop of `runAllTasks`, `for (i = rank; i < ntasks; i += stride)`,
from the current `i`; `fuel` bounds the number of iterations. -/
def taskLoop [Zero R] (cb : Callbacks σ α R) (stride ntasks : Nat) :
    Nat → Nat → ActionWithVessel σ α R × List Event →
      Except Fault (ActionWithVessel σ α R × List Event)
  | 0, i, st => if i < ntasks then Except.error Fault.outOfFuel else Except.ok st
  | fuel + 1, i, (a, tr) =>
    if i < ntasks then
      let r := cb.performTask i a.taskSide                        -- skipme=performTask(i)
      let a1 : ActionWithVessel σ α R :=
        { a with derived := r.2.derived, thisval := r.2.thisval,
                 derivatives := r.2.derivatives }
      let tr1 := tr ++ [Event.performTask i]
      if r.1 then
        if cb.debug && !cb.isPossibleToSkip a1.derived then
          Except.error (Fault.assertion
            "To make your action work you must write a routine to get weights")
        else
          let a2 := { a1 with derived := cb.deactivate_task a1.derived }
          taskLoop cb stride ntasks fuel ((i + stride) % UNSIGNED_RANGE)
            (a2, tr1 ++ [Event.deactivate_task i])
      else
        let c := calculateLoop cb i a1.functions.length 0 (a1, false, tr1)
        let a2 := c.1
        let keep := c.2.1
        let cleared := clearLoop (getNumberOfDerivatives cb a2 i) 0 a2.derivatives
        let a3 := { a2 with derivatives := cleared }
        if !keep then
          taskLoop cb stride ntasks fuel ((i + stride) % UNSIGNED_RANGE)
            ({ a3 with derived := cb.deactivate_task a3.derived },
             c.2.2 ++ [Event.deactivate_task i])
        else
          taskLoop cb stride ntasks fuel ((i + stride) % UNSIGNED_RANGE) (a3, c.2.2)
    else Except.ok (a, tr)

/-- The loop `for (j = k; j < functions.size(); ++j) functions[j]->finish(tolerance)`,
for `n` iterations from `j = k`. -/
def finishLoop (cb : Callbacks σ α R) :
    Nat → Nat → ActionWithVessel σ α R × List Event → ActionWithVessel σ α R × List Event
  | 0, _, st => st
  | n + 1, j, (a, tr) =>
    match a.functions[j]? with
    | none => (a, tr)
    | some v =>
      let r := cb.finish v a.tolerance a.derived a.buffer
      finishLoop cb n (j + 1)
        ({ a with functions := a.functions.set j { v with self := r.1 }, derived := r.2 },
         tr ++ [Event.finish j])

/-- The stride of the task loop: `comm.Get_size()`, or 1 when serial. -/
def strideOf (cb : Callbacks σ α R) (a : ActionWithVessel σ α R) : Nat :=
  if a.serial then 1 else cb.Get_size

/-- The first task of the task loop: `comm.Get_rank()`, or 0 when serial. -/
def rankOf (cb : Callbacks σ α R) (a : ActionWithVessel σ α R) : Nat :=
  if a.serial then 0 else cb.Get_rank

/-- The method `ActionWithVessel::runAllTasks`: the state it leaves and the
calls it made, in order. -/
def runAllTasks [Zero R] (cb : Callbacks σ α R) (a : ActionWithVessel σ α R)
    (ntasks fuel : Nat) : Except Fault (ActionWithVessel σ α R × List Event) :=
  if !a.read then
    Except.error (Fault.assertion "you must have a call to readVesselKeywords somewhere")
  else
    let stride := strideOf cb a
    let rank := rankOf cb a
    -- `buffer.assign(buffer.size(),0.0)` is commented out in the source
    match taskLoop cb stride ntasks fuel rank (a, []) with
    | Except.error e => Except.error e
    | Except.ok (a1, tr) =>
      let st : ActionWithVessel σ α R × List Event :=
        if !a1.serial && decide (0 < a1.buffer.length) then
          ({ a1 with buffer := cb.Sum a1.buffer }, tr ++ [Event.Sum])
        else (a1, tr)
      Except.ok (finishLoop cb st.1.functions.length 0 st)

/-- The task indices of the calls to `performTask` in a trace, in order. -/
def performed : List Event → List Nat
  | [] => []
  | Event.performTask i :: rest => i :: performed rest
  | _ :: rest => performed rest

/-- The task indices a worker passes to `performTask` in one pass (none if the
pass has no result). -/
def tasksOf [Zero R] (cb : Callbacks σ α R) (a : ActionWithVessel σ α R)
    (ntasks fuel : Nat) : List Nat :=
  match runAllTasks cb a ntasks fuel with
  | Except.ok r => performed r.2
  | Except.error _ => []

/-- The values the counter of `for (i = start; i < ntasks; i += stride)` takes
within `fuel` iterations, without wrap-around. -/
def stridedFrom (stride ntasks : Nat) : Nat → Nat → List Nat
  | 0, _ => []
  | fuel + 1, i => if i < ntasks then i :: stridedFrom stride ntasks fuel (i + stride) else []

/-- No debug assertion of `runAllTasks` can fail: they are compiled out, or
the task source can always skip. -/
def assertionsHold (cb : Callbacks σ α R) : Prop :=
  cb.debug = false ∨ ∀ d, cb.isPossibleToSkip d = true

/-- The method `ActionWithVessel::clearBuffers`:
`buffer.assign(buffer.size(),0.0)`. -/
def clearBuffers [Zero R] (a : ActionWithVessel σ α R) : ActionWithVessel σ α R :=
  { a with buffer := List.replicate a.buffer.length 0 }

/-- The method `ActionWithVessel::addElementDerivative`,
`derivatives[ider] += der`, on the task side of the object (its debug assertion
`ider<derivatives.size()` is not modelled: a position outside the vector
addresses no element). -/
def addElementDerivative [Add R] (t : TaskSide σ R) (ider : Nat) (der : R) : TaskSide σ R :=
  { t with derivatives := vaddAt ider der t.derivatives }

/-- The loop of `chainRuleForElementDerivatives`,
`for (i = k; i < derivatives.size(); ++i)
valout->addToBufferElement(vstart+i, df*derivatives[i])`, over the derivatives
that remain from position `k` on. -/
def chainLoop [Add R] [Mul R] (valout : Vessel α) (vstart : Nat) (df : R) :
    List R → Nat → List R → List R
  | [], _, buffer => buffer
  | d :: rest, k, buffer =>
    chainLoop valout vstart df rest (k + 1) (valout.addToBufferElement (vstart + k) (df * d) buffer)

/-- The method `ActionWithVessel::chainRuleForElementDerivatives`. -/
def chainRuleForElementDerivatives [Add R] [Mul R] (cb : Callbacks σ α R)
    (a : ActionWithVessel σ α R) (j vstart : Nat) (df : R) (valout : Vessel α) :
    Except Fault (ActionWithVessel σ α R) :=
  if cb.debug && !decide (a.derivatives.length = getNumberOfDerivatives cb a j) then
    Except.error (Fault.assertion "derivatives.size()==getNumberOfDerivatives(j)")
  else
    Except.ok { a with buffer := chainLoop valout vstart df a.derivatives 0 a.buffer }

/-- The loop of `transferDerivatives`,
`for (i = k; i < derivatives.size(); ++i) valout->addDerivative(i, df*derivatives[i])`,
over the derivatives that remain from position `k` on. -/
def transferLoop [Add R] [Mul R] (df : R) : List R → Nat → Value R → Value R
  | [], _, valout => valout
  | d :: rest, k, valout => transferLoop df rest (k + 1) (valout.addDerivative k (df * d))

/-- The method `ActionWithVessel::transferDerivatives` (its argument `value_in`
is not used by the source): the output value it leaves. -/
def transferDerivatives [Add R] [Mul R] (cb : Callbacks σ α R)
    (a : ActionWithVessel σ α R) (j : Nat) (df : R) (valout : Value R) :
    Except Fault (Value R) :=
  if cb.debug && !decide (a.derivatives.length = getNumberOfDerivatives cb a j) then
    Except.error (Fault.assertion "derivatives.size()==getNumberOfDerivatives(j)")
  else
    Except.ok (transferLoop df a.derivatives 0 valout)

/-- One call of `transferDerivatives` for each task of a list, a task being
its sensitivity `df` and its derivative vector, in list order. -/
def transferTasks [Add R] [Mul R] (cb : Callbacks σ α R) (a : ActionWithVessel σ α R)
    (j : Nat) : List (R × List R) → Value R → Except Fault (Value R)
  | [], valout => Except.ok valout
  | t :: rest, valout =>
    match transferDerivatives cb { a with derivatives := t.2 } j t.1 valout with
    | Except.error e => Except.error e
    | Except.ok out => transferTasks cb a j rest out

/-- One call of `chainRuleForElementDerivatives` for each task of a list, a
task being its sensitivity `df` and its derivative vector, in list order: the
buffer it leaves. -/
def chainTasks [Add R] [Mul R] (cb : Callbacks σ α R) (a : ActionWithVessel σ α R)
    (j vstart : Nat) (valout : Vessel α) : List (R × List R) → List R → Except Fault (List R)
  | [], buffer => Except.ok buffer
  | t :: rest, buffer =>
    match chainRuleForElementDerivatives cb { a with derivatives := t.2, buffer := buffer }
        j vstart t.1 valout with
    | Except.error e => Except.error e
    | Except.ok out => chainTasks cb a j vstart valout rest out.buffer

/-- The loop of `getVessel` over the vessels that remain; `getLabel` is
`Vessel::getLabel` (`Vessel.h` is not among the sources): the label of a
vessel that has one. -/
def getVesselLoop (getLabel : Vessel α → Option String) (name : String) :
    List (Vessel α) → Option (Vessel α)
  | [] => none
  | v :: rest =>
    match getLabel v with
    | some myname => if myname = name then some v else getVesselLoop getLabel name rest
    | none => getVesselLoop getLabel name rest

/-- The method `ActionWithVessel::getVessel`; `error` ends the call with its
message. -/
def getVessel (getLabel : Vessel α → Option String) (a : ActionWithVessel σ α R)
    (name : String) : Except String (Vessel α) :=
  match getVesselLoop getLabel name a.functions with
  | some v => Except.ok v
  | none => Except.error ("there is no vessel with name " ++ name)

/-- The state in which the vessels see task `i`: the object once
`performTask(i)` has written its value and derivatives. -/
def afterPerform (cb : Callbacks σ α R) (i : Nat) (a : ActionWithVessel σ α R) :
    ActionWithVessel σ α R :=
  { a with derived := (cb.performTask i a.taskSide).2.derived,
           thisval := (cb.performTask i a.taskSide).2.thisval,
           derivatives := (cb.performTask i a.taskSide).2.derivatives }

/-- The events of the task loop: calls to `performTask`, `calculate` and
`deactivate_task`. -/
def isLoopEvent : Event → Bool
  | Event.performTask _ => true
  | Event.deactivate_task _ => true
  | Event.calculate _ _ => true
  | _ => false

/-- The buffer a worker holds when its task loop ends, before `comm.Sum`. -/
def loopBuffer [Zero R] (cb : Callbacks σ α R) (a : ActionWithVessel σ α R)
    (ntasks fuel : Nat) : List R :=
  match taskLoop cb (strideOf cb a) ntasks fuel (rankOf cb a) (a, []) with
  | Except.ok r => r.1.buffer
  | Except.error _ => []

/-- Element-wise sum of buffers of length `len`. -/
def sumBuffers [Add R] [Zero R] (len : Nat) (buffers : List (List R)) : List R :=
  (List.range len).map (fun e => (buffers.map (fun b => b.getD e 0)).sum)

/-- A list of calls `addToBufferElement(offset, amount)` on a vessel. -/
def addAmounts [Add R] (v : Vessel α) : List (Nat × R) → List R → List R
  | [], buffer => buffer
  | p :: rest, buffer => addAmounts v rest (v.addToBufferElement p.1 p.2 buffer)

/-- What a list of calls `addToBufferElement(offset, amount)` on a vessel adds
to element `e` of the buffer. -/
def amountAt [Add R] [Zero R] (v : Vessel α) (am : List (Nat × R)) (e : Nat) : R :=
  (am.map (fun p => if v.bufstart + p.1 = e then p.2 else 0)).sum

/-- What task `i` adds to element `e` of the buffer when the vessels `fs` add
the amounts `amounts`: nothing when the task is skipped. -/
def taskAmount [Add R] [Zero R] (fs : List (Vessel α))
    (amounts : Vessel α → Nat → List (Nat × R)) (skip : Nat → Bool) (i e : Nat) : R :=
  if skip i then 0 else (fs.map (fun v => amountAt v (amounts v i) e)).sum

/-- Sum-like vessels on a task source with task-dependent values: whether
task `i` is skipped depends on `i` only, and what `calculate` does for task `i`
is to add to the buffer, through `addToBufferElement`, amounts that depend on
the vessel and on `i` only, leaving the vessel as it is. -/
def SumLike [Add R] (cb : Callbacks σ α R) (amounts : Vessel α → Nat → List (Nat × R))
    (skip : Nat → Bool) : Prop :=
  (∀ i t, (cb.performTask i t).1 = skip i) ∧
  (∀ v i tol t buffer,
    (cb.calculate v i tol (cb.performTask i t).2 buffer).2.1 = v.self ∧
    (cb.calculate v i tol (cb.performTask i t).2 buffer).2.2 = addAmounts v (amounts v i) buffer)

end ActionWithVessel

/-- A task source and vessels that keep no state of their own, used for
concrete runs: every task is computed and every vessel reports a
contribution; a vessel asks for `self + 1` buffer elements. -/
def plainCallbacks (size rank : Nat) : Callbacks Unit Nat Int where
  Get_size := size
  Get_rank := rank
  Sum := fun b => b
  debug := false
  performTask := fun _ t => (false, t)
  deactivate_task := fun d => d
  isPossibleToSkip := fun _ => false
  numberOfDerivativesOfTask := none
  getNumberOfDerivatives := fun _ => 0
  resize := fun v _ => (v.self + 1, v.self)
  calculate := fun v _ _ _ b => (true, v.self, b)
  finish := fun v _ d _ => (v.self, d)

/-- An action with two vessels, not yet resized, that runs in parallel. -/
def plainAction : ActionWithVessel Unit Nat Int :=
  { read := true, serial := false, tolerance := 0, thisval := 0, derivatives := [],
    buffer := [], functions := [⟨0, 0, 2⟩, ⟨0, 0, 4⟩], derived := () }

/-- A task source whose task `i` has value `i + 1`, with sum vessels: each
vessel adds the value of the task to the first element of its slice. `total`
is what `comm.Sum` returns. -/
def sumCallbacks (size rank : Nat) (total : List Int) : Callbacks Unit Unit Int where
  Get_size := size
  Get_rank := rank
  Sum := fun _ => total
  debug := true
  performTask := fun i t => (false, { t with thisval := (i : Int) + 1 })
  deactivate_task := fun d => d
  isPossibleToSkip := fun _ => true
  numberOfDerivativesOfTask := none
  getNumberOfDerivatives := fun _ => 0
  resize := fun _ _ => (1, ())
  calculate := fun v _ _ t b => (true, v.self, v.addToBufferElement 0 t.thisval b)
  finish := fun v _ d _ => (v.self, d)

/-- An action with one sum vessel on a buffer of one element that holds `x`. -/
def sumAction (serial : Bool) (x : Int) : ActionWithVessel Unit Unit Int :=
  { read := true, serial := serial, tolerance := 0, thisval := 0, derivatives := [],
    buffer := [x], functions := [⟨0, 1, ()⟩], derived := () }

/-- A task source that can skip: every task adds 1 to its first derivative
through `addElementDerivative` and then signals skip. -/
def skipCallbacks : Callbacks Unit Unit Int where
  Get_size := 1
  Get_rank := 0
  Sum := fun b => b
  debug := true
  performTask := fun _ t => (true, ActionWithVessel.addElementDerivative t 0 1)
  deactivate_task := fun d => d
  isPossibleToSkip := fun _ => true
  numberOfDerivativesOfTask := none
  getNumberOfDerivatives := fun _ => 1
  resize := fun _ _ => (1, ())
  calculate := fun v _ _ _ b => (true, v.self, b)
  finish := fun v _ d _ => (v.self, d)

/-- An action with one vessel and one derivative, all zero. -/
def skipAction : ActionWithVessel Unit Unit Int :=
  { read := true, serial := true, tolerance := 0, thisval := 0, derivatives := [0],
    buffer := [0], functions := [⟨0, 1, ()⟩], derived := () }

/-- A task source that skips while the debug assertions are compiled in and
`isPossibleToSkip` keeps its default `false`. -/
def unguardedCallbacks : Callbacks Unit Unit Int :=
  { skipCallbacks with isPossibleToSkip := fun _ => false }

/-- A task source that records, in its own state, the current task and the
tasks for which `deactivate_task` was called; its vessels never report a
contribution. -/
def quietCallbacks : Callbacks (Nat × List Nat) Unit Int where
  Get_size := 1
  Get_rank := 0
  Sum := fun b => b
  debug := true
  performTask := fun i t => (false, { t with derived := (i, t.derived.2) })
  deactivate_task := fun d => (d.1, d.2 ++ [d.1])
  isPossibleToSkip := fun _ => true
  numberOfDerivativesOfTask := none
  getNumberOfDerivatives := fun _ => 0
  resize := fun _ _ => (1, ())
  calculate := fun v _ _ _ b => (false, v.self, b)
  finish := fun v _ d _ => (v.self, d)

/-- An action with one vessel in which no task has been deactivated. -/
def quietAction : ActionWithVessel (Nat × List Nat) Unit Int :=
  { read := true, serial := true, tolerance := 0, thisval := 0, derivatives := [],
    buffer := [0], functions := [⟨0, 1, ()⟩], derived := (0, []) }

/-- An action with two derivatives 1 and 2 on a buffer of six zeros. -/
def chainAction : ActionWithVessel Unit Nat Int :=
  { plainAction with derivatives := [1, 2], buffer := [0, 0, 0, 0, 0, 0] }

/-- Labels for concrete runs: the vessel state is its label, the empty
string standing for a vessel without label. -/
def labelOf (v : Vessel String) : Option String :=
  if v.self = "" then none else some v.self

/-- An action with three vessels, the first without label, the other two
labelled `lt`. -/
def labelledAction : ActionWithVessel Unit String Int :=
  { read := true, serial := true, tolerance := 0, thisval := 0, derivatives := [],
    buffer := [], functions := [⟨0, 0, ""⟩, ⟨0, 1, "lt"⟩, ⟨1, 2, "lt"⟩], derived := () }

end vesselbase

namespace ColvarAlphaRMSD

/-- How the constructor of `ColvarAlphaRMSD` can end without an object.
Modelled from the spec (section 7): `Action::error` and `plumed_assert`
(`Action.h`, `tools/Exception.h`, not among the sources) are fatal, they end
the configuration step where they are raised. -/
inductive Abort where
  /-- the call `error(msg)` -/
  | error (msg : String)
  /-- a failed `plumed_assert(test)` -/
  | assertion (test : String)
  deriving DecidableEq

/-- The message of the call to `error` in the constructor. -/
def notLongEnough : String :=
  "segment of backbone defined is not long enough to form an alpha helix. " ++
    "Each backbone fragment must contain a minimum of 6 residues"

/-- The loop `for (k = j; k < 30; ++k) nlist[k] = accum+k`, for `n` iterations
from `k = j`. -/
def fillNlist : Nat → Nat → Nat → List Nat → List Nat
  | 0, _, _, nlist => nlist
  | n + 1, j, accum, nlist =>
    fillNlist n (j + 1) accum (nlist.set j ((accum + j) % UNSIGNED_RANGE))

/-- The loop over the residues of one chain,
`for (ires = j; ires < nres-5; ires++)`, for `n` iterations from `ires = j`: the
state is `nlist` and the windows added so far. `addColvar(nlist)`
(`MultiColvar`, not among the sources) is modelled from the spec as adding one
task window on the atoms of `nlist`. -/
def residueLoop (nprevious : Nat) :
    Nat → Nat → List Nat × List (List Nat) → List Nat × List (List Nat)
  | 0, _, st => st
  | n + 1, ires, (nlist, colvars) =>
    let accum := (nprevious + 5 * ires % UNSIGNED_RANGE) % UNSIGNED_RANGE
    let nlist1 := fillNlist 30 0 accum nlist
    residueLoop nprevious n (ires + 1) (nlist1, colvars ++ [nlist1])

/-- The loop over the chains of the constructor, over the chains that remain,
with the running `nprevious`: the windows added when the loop ends, and how it
ended (`none` when it ran to its end). -/
def backboneLoop :
    List Nat → Nat → List Nat × List (List Nat) → List (List Nat) × Option Abort
  | [], _, st => (st.2, none)
  | c :: rest, nprevious, st =>
    if c < 30 then
      (st.2, some (Abort.error notLongEnough))
    else
      let nres := c / 5
      if c % 5 ≠ 0 then (st.2, some (Abort.assertion "chains[i]%5==0"))
      else
        let st1 := residueLoop nprevious ((nres + UNSIGNED_RANGE - 5) % UNSIGNED_RANGE) 0 st
        backboneLoop rest ((nprevious + c) % UNSIGNED_RANGE) st1

/-- The constructor `ColvarAlphaRMSD::ColvarAlphaRMSD`, from the chain lengths
that `readBackboneAtoms` returns to the end of the loop that builds the
sections of alpha helix: the task windows added and how the loop ended. The
reference structure that follows is floating-point data handed to
`setSecondaryStructure` and is not part of the embedding. -/
def construct (chains : List Nat) : List (List Nat) × Option Abort :=
  backboneLoop chains 0 (List.replicate 30 0, [])

/-- The windows of one chain of `c` atoms that starts at atom offset `o`: for
each residue offset `ires < c/5 - 5`, the 30 consecutive indices from
`o + 5*ires`. -/
def chainWindows (o c : Nat) : List (List Nat) :=
  (List.range (c / 5 - 5)).map (fun ires => (List.range 30).map (fun k => o + 5 * ires + k))

/-- The windows of a list of chains laid out one after the other from atom
offset `o`, chain by chain. -/
def allWindows : List Nat → Nat → List (List Nat)
  | [], _ => []
  | c :: rest, o => chainWindows o c ++ allWindows rest (o + c)

/-- A chain the constructor accepts: at least 30 atoms, a multiple of 5. -/
def goodChain (c : Nat) : Prop := 30 ≤ c ∧ c % 5 = 0

instance : DecidablePred goodChain := fun c => by unfold goodChain; infer_instance

end ColvarAlphaRMSD

end PLMD
namespace PLMD

theorem forLoopAux_inv {σ : Type} (body : Nat → σ → Option σ) (Inv : Nat → σ → Prop) :
    ∀ (n lo : Nat) (s : σ), Inv lo s →
      (∀ j t, lo ≤ j → j < lo + n → Inv j t → ∃ t', body j t = some t' ∧ Inv (j + 1) t') →
      ∃ s', forLoopAux body n lo s = some s' ∧ Inv (lo + n) s' := by
  intro n
  induction n with
  | zero => intro lo s h _; exact ⟨s, rfl, by simpa using h⟩
  | succ n ih =>
    intro lo s h step
    obtain ⟨t, ht, hInv⟩ := step lo s (Nat.le_refl lo) (by omega) h
    obtain ⟨s', hs', hI⟩ := ih (lo + 1) t hInv (fun j u h1 h2 hu => step j u (by omega) (by omega) hu)
    refine ⟨s', ?_, ?_⟩
    · simp [forLoopAux, ht, hs']
    · have : lo + (n + 1) = lo + 1 + n := by omega
      rw [this]; exact hI

theorem forLoop_inv {σ : Type} (body : Nat → σ → Option σ) (Inv : Nat → σ → Prop)
    (lo hi : Nat) (s : σ) (hle : lo ≤ hi) (h0 : Inv lo s)
    (step : ∀ j t, lo ≤ j → j < hi → Inv j t → ∃ t', body j t = some t' ∧ Inv (j + 1) t') :
    ∃ s', forLoop lo hi body s = some s' ∧ Inv hi s' := by
  obtain ⟨s', h1, h2⟩ := forLoopAux_inv body Inv (hi - lo) lo s h0
    (fun j t h1 h2 hj => step j t h1 (by omega) hj)
  refine ⟨s', h1, ?_⟩
  have : lo + (hi - lo) = hi := by omega
  rw [this] at h2; exact h2

theorem push_back_at_middle (A B : List (List Nat)) (c : List Nat) (a : Nat) :
    push_back_at (A ++ c :: B) A.length a = some (A ++ (c ++ [a]) :: B) := by
  have h : (A ++ c :: B)[A.length]? = some c := by
    rw [List.getElem?_append_right (Nat.le_refl _)]; simp
  unfold push_back_at
  rw [h]
  simp

theorem take_succ_of_getElem? {α : Type} (l : List α) (k : Nat) (x : α) (h : l[k]? = some x) :
    l.take (k + 1) = l.take k ++ [x] := by
  rw [List.take_succ, h]; rfl

theorem vresize_nil {α : Type} (n : Nat) (x : α) : vresize [] n x = List.replicate n x := by
  simp [vresize]

theorem replicate_split {α : Type} (n i : Nat) (x : α) (h : i < n) :
    List.replicate (n - i) x = x :: List.replicate (n - i - 1) x := by
  have : n - i = (n - i - 1) + 1 := by omega
  rw [this, List.replicate_succ]; simp

/-- Inner loop of the constructor: all of `list1` is appended to row `i`. -/
theorem construct_inner (list1 : List Nat) (A B : List (List Nat)) :
    forLoop 0 list1.length (fun j nb => do
      let a ← list1[j]?
      push_back_at nb A.length a) (A ++ [] :: B) = some (A ++ list1 :: B) := by
  obtain ⟨s', h1, h2⟩ := forLoop_inv (fun j nb => do
      let a ← list1[j]?
      push_back_at nb A.length a) (fun j nb => nb = A ++ list1.take j :: B)
      0 list1.length (A ++ [] :: B) (Nat.zero_le _) (by simp) (by
        intro j t _ hj ht
        subst ht
        have hget : list1[j]? = some list1[j] := List.getElem?_eq_getElem hj
        refine ⟨A ++ (list1.take j ++ [list1[j]]) :: B, ?_, ?_⟩
        · simp only [hget, Option.bind_eq_bind, Option.some_bind]
          exact push_back_at_middle A B _ _
        · show _ = A ++ list1.take (j + 1) :: B
          rw [take_succ_of_getElem? list1 j _ hget])
  rw [h1, h2, List.take_length]

theorem construct_neighbors (list0 list1 : List Nat) :
    forLoop 0 list0.length (fun i nb =>
      forLoop 0 list1.length (fun j nb => do
        let a ← list1[j]?
        push_back_at nb i a) nb) (vresize [] list0.length [])
      = some (List.replicate list0.length list1) := by
  obtain ⟨s', h1, h2⟩ := forLoop_inv (fun i nb =>
      forLoop 0 list1.length (fun j nb => do
        let a ← list1[j]?
        push_back_at nb i a) nb)
      (fun i nb => nb = List.replicate i list1 ++ List.replicate (list0.length - i) [])
      0 list0.length (vresize [] list0.length []) (Nat.zero_le _) (by simp [vresize_nil]) (by
        intro i t _ hi ht
        subst ht
        refine ⟨List.replicate (i + 1) list1 ++ List.replicate (list0.length - (i + 1)) [], ?_, rfl⟩
        rw [replicate_split _ _ _ hi]
        beta_reduce
        have h := construct_inner list1 (List.replicate i list1) (List.replicate (list0.length - i - 1) [])
        simp only [List.length_replicate] at h
        rw [h, List.replicate_succ']
        simp [Nat.sub_sub])
  rw [h1, h2]; simp

namespace NeighborList
variable {V P R : Type}

theorem indexLoop_nil (request : List Nat) (k : Nat) : indexLoop request k [] = [] := by
  induction request generalizing k with
  | nil => rfl
  | cons a rest ih => simp [indexLoop, ih]

theorem update_inner [LinearOrder R] [Zero R] (g : Geometry V P R) (nl : NeighborList P R)
    (positions : List V) (i : Nat) (p : V) (A B : List (List Nat))
    (hlen : positions.length = nl.list0_.length + nl.list1_.length)
    (hp : positions[i]? = some p) (hA : A.length = i) :
    forLoop nl.list0_.length (nl.list0_.length + nl.list1_.length) (fun j nb => do
      let pi ← positions[i]?
      let pj ← positions[j]?
      let value := pairValue g nl.pbc_ pi pj
      if 0 < value ∧ value ≤ nl.distance_ then do
        let a ← nl.list1_[j - nl.list0_.length]?
        push_back_at nb i a
      else pure nb) (A ++ [] :: B)
    = some (A ++ (((nl.list1_.zip (positions.drop nl.list0_.length)).filter
        (fun aq => decide (0 < pairValue g nl.pbc_ p aq.2 ∧
          pairValue g nl.pbc_ p aq.2 ≤ nl.distance_))).map Prod.fst) :: B) := by
  subst hA
  obtain ⟨s', h1, h2⟩ := forLoop_inv (fun j nb => do
      let pi ← positions[A.length]?
      let pj ← positions[j]?
      let value := pairValue g nl.pbc_ pi pj
      if 0 < value ∧ value ≤ nl.distance_ then do
        let a ← nl.list1_[j - nl.list0_.length]?
        push_back_at nb A.length a
      else pure nb)
    (fun j nb => nb = A ++ ((((nl.list1_.zip (positions.drop nl.list0_.length)).take
        (j - nl.list0_.length)).filter
        (fun aq => decide (0 < pairValue g nl.pbc_ p aq.2 ∧
          pairValue g nl.pbc_ p aq.2 ≤ nl.distance_))).map Prod.fst) :: B)
    nl.list0_.length (nl.list0_.length + nl.list1_.length) (A ++ [] :: B) (by omega) (by simp)
    (by
      intro j t hj1 hj2 ht
      subst ht
      have hjlen : j < positions.length := by omega
      have hq : positions[j]? = some positions[j] := List.getElem?_eq_getElem hjlen
      have hk : j - nl.list0_.length < nl.list1_.length := by omega
      have ha : nl.list1_[j - nl.list0_.length]? = some nl.list1_[j - nl.list0_.length] :=
        List.getElem?_eq_getElem hk
      have hz : (nl.list1_.zip (positions.drop nl.list0_.length))[j - nl.list0_.length]?
          = some (nl.list1_[j - nl.list0_.length], positions[j]) := by
        rw [List.getElem?_zip_eq_some]
        refine ⟨ha, ?_⟩
        rw [List.getElem?_drop]
        have : nl.list0_.length + (j - nl.list0_.length) = j := by omega
        rw [this]; exact hq
      have hsucc : j + 1 - nl.list0_.length = (j - nl.list0_.length) + 1 := by omega
      beta_reduce
      rw [hsucc, take_succ_of_getElem? _ _ _ hz]
      simp only [hp, hq, Option.bind_eq_bind, Option.some_bind, List.filter_append,
        List.map_append]
      by_cases hc : 0 < pairValue g nl.pbc_ p positions[j] ∧
          pairValue g nl.pbc_ p positions[j] ≤ nl.distance_
      · refine ⟨_, ?_, rfl⟩
        rw [if_pos hc, ha]
        simp only [Option.some_bind]
        rw [push_back_at_middle]
        simp [List.filter, hc]
      · refine ⟨_, ?_, rfl⟩
        rw [if_neg hc]
        simp [List.filter, hc])
  rw [h1, h2]
  have : nl.list0_.length + nl.list1_.length - nl.list0_.length = nl.list1_.length := by omega
  rw [this, List.take_of_length_le]
  simp [List.length_zip]

theorem directScan_length [LinearOrder R] [Zero R] (g : Geometry V P R) (pbc : Option P)
    (cutoff : R) (n0 : Nat) (list1 : List Nat) (positions : List V)
    (h : n0 ≤ positions.length) :
    (directScan g pbc cutoff n0 list1 positions).length = n0 := by
  simp [directScan, h]

theorem directScan_getElem? [LinearOrder R] [Zero R] (g : Geometry V P R) (pbc : Option P)
    (cutoff : R) (n0 : Nat) (list1 : List Nat) (positions : List V) (i : Nat) (p : V)
    (hi : i < n0) (hp : positions[i]? = some p) :
    (directScan g pbc cutoff n0 list1 positions)[i]? =
      some (((list1.zip (positions.drop n0)).filter
        (fun aq => decide (0 < pairValue g pbc p aq.2 ∧ pairValue g pbc p aq.2 ≤ cutoff))).map
        Prod.fst) := by
  simp [directScan, List.getElem?_take, hi, hp]

theorem update_eq [LinearOrder R] [Zero R] (g : Geometry V P R) (nl : NeighborList P R)
    (positions : List V)
    (hlen : positions.length = nl.list0_.length + nl.list1_.length) :
    update g nl positions = some
      ({ nl with
          neighbors_ := directScan g nl.pbc_ nl.distance_ nl.list0_.length nl.list1_ positions,
          indexes_ := [] },
       nl.list0_ ++ (directScan g nl.pbc_ nl.distance_ nl.list0_.length nl.list1_
          positions).flatten) := by
  have hn0 : nl.list0_.length ≤ positions.length := by omega
  have hsl := directScan_length g nl.pbc_ nl.distance_ nl.list0_.length nl.list1_ positions hn0
  obtain ⟨s', h1, h2⟩ := forLoop_inv
    (fun i (st : List (List Nat) × List Nat) => do
      let nb ← forLoop nl.list0_.length (nl.list0_.length + nl.list1_.length) (fun j nb => do
        let pi ← positions[i]?
        let pj ← positions[j]?
        let value := pairValue g nl.pbc_ pi pj
        if 0 < value ∧ value ≤ nl.distance_ then do
          let a ← nl.list1_[j - nl.list0_.length]?
          push_back_at nb i a
        else pure nb) st.1
      let row ← nb[i]?
      pure (nb, st.2 ++ row))
    (fun i st => st =
      ((directScan g nl.pbc_ nl.distance_ nl.list0_.length nl.list1_ positions).take i
          ++ List.replicate (nl.list0_.length - i) [],
       nl.list0_ ++ ((directScan g nl.pbc_ nl.distance_ nl.list0_.length nl.list1_
          positions).take i).flatten))
    0 nl.list0_.length (vresize [] nl.list0_.length [], nl.list0_) (Nat.zero_le _)
    (by simp [vresize_nil])
    (by
      intro i t _ hi ht
      subst ht
      have hp : positions[i]? = some positions[i] := List.getElem?_eq_getElem (by omega)
      have hrow := directScan_getElem? g nl.pbc_ nl.distance_ nl.list0_.length nl.list1_
        positions i _ hi hp
      have hA : ((directScan g nl.pbc_ nl.distance_ nl.list0_.length nl.list1_
          positions).take i).length = i := by
        rw [List.length_take, hsl]; omega
      have hin := update_inner g nl positions i positions[i]
        ((directScan g nl.pbc_ nl.distance_ nl.list0_.length nl.list1_ positions).take i)
        (List.replicate (nl.list0_.length - i - 1) []) hlen hp hA
      beta_reduce
      rw [replicate_split _ _ _ hi]
      simp only [Option.bind_eq_bind] at hin ⊢
      rw [hin]
      simp only [Option.some_bind]
      have hget : ∀ (A B : List (List Nat)) (c : List Nat), A.length = i →
          (A ++ c :: B)[i]? = some c := by
        intro A B c hAl
        subst hAl
        rw [List.getElem?_append_right (Nat.le_refl _)]; simp
      rw [hget _ _ _ hA]
      refine ⟨_, rfl, ?_⟩
      rw [take_succ_of_getElem? _ _ _ hrow]
      simp [Nat.sub_sub])
  subst h2
  unfold update
  simp only [Option.bind_eq_bind, Option.pure_def] at h1 ⊢
  rw [h1]
  simp only [Option.some_bind, indexLoop_nil]
  rw [List.take_of_length_le (Nat.le_of_eq hsl)]
  simp

theorem mem_zip_iff_getElem? {α β : Type} (l₁ : List α) (l₂ : List β) (a : α) (b : β) :
    (a, b) ∈ l₁.zip l₂ ↔ ∃ j : Nat, l₁[j]? = some a ∧ l₂[j]? = some b := by
  rw [List.mem_iff_getElem?]
  constructor
  · rintro ⟨j, hj⟩
    exact ⟨j, by simpa using List.getElem?_zip_eq_some.mp hj⟩
  · rintro ⟨j, h1, h2⟩
    exact ⟨j, List.getElem?_zip_eq_some.mpr ⟨h1, h2⟩⟩

/-- C1: for positions of length `|list0| + |list1|`, `update` returns, and
whatever neighbour sets and index were held before, the neighbour sets it
leaves are those of the one-shot scan: one per owner, the set of owner `i`
being the candidates `list1[j]`, in `list1` order, whose value `d` between
`positions[i]` and `positions[|list0| + j]` (periodic when a box is held,
plain otherwise) satisfies `0 < d ≤ cutoff`; so an atom is in the set exactly
when one of its occurrences in `list1` has such a `d`. -/
theorem update_neighbors_directScan [LinearOrder R] [Zero R] (g : Geometry V P R)
    (nl : NeighborList P R) (positions : List V)
    (hlen : positions.length = nl.list0_.length + nl.list1_.length) :
    ∃ nl1 request, update g nl positions = some (nl1, request) ∧
      nl1.neighbors_ = directScan g nl.pbc_ nl.distance_ nl.list0_.length nl.list1_ positions ∧
      nl1.neighbors_.length = nl.list0_.length ∧
      (∀ i p, i < nl.list0_.length → positions[i]? = some p →
        nl1.neighbors_[i]? = some (((nl.list1_.zip (positions.drop nl.list0_.length)).filter
          (fun aq => decide (0 < pairValue g nl.pbc_ p aq.2 ∧
            pairValue g nl.pbc_ p aq.2 ≤ nl.distance_))).map Prod.fst)) ∧
      (∀ i p row a, i < nl.list0_.length → positions[i]? = some p →
        nl1.neighbors_[i]? = some row →
        (a ∈ row ↔ ∃ j q, nl.list1_[j]? = some a ∧
          positions[nl.list0_.length + j]? = some q ∧
          0 < pairValue g nl.pbc_ p q ∧ pairValue g nl.pbc_ p q ≤ nl.distance_)) ∧
      (∀ previous index, (update g { nl with neighbors_ := previous, indexes_ := index }
          positions).map (fun r => r.1.neighbors_) = some nl1.neighbors_) := by
  have hn0 : nl.list0_.length ≤ positions.length := by omega
  refine ⟨_, _, update_eq g nl positions hlen, rfl, ?_, ?_, ?_, ?_⟩
  · exact directScan_length g _ _ _ _ _ hn0
  · intro i p hi hp
    exact directScan_getElem? g _ _ _ _ _ i p hi hp
  · intro i p row a hi hp hrow
    have h := directScan_getElem? g nl.pbc_ nl.distance_ nl.list0_.length nl.list1_
      positions i p hi hp
    simp only at hrow
    rw [h] at hrow
    injection hrow with hrow
    subst hrow
    simp only [List.mem_map, List.mem_filter, decide_eq_true_eq, Prod.exists,
      exists_and_right, exists_eq_right]
    constructor
    · rintro ⟨q, hmem, hc⟩
      obtain ⟨j, h1, h2⟩ := (mem_zip_iff_getElem? _ _ a q).mp hmem
      rw [List.getElem?_drop] at h2
      exact ⟨j, q, h1, h2, hc⟩
    · rintro ⟨j, q, h1, h2, hc⟩
      refine ⟨q, (mem_zip_iff_getElem? _ _ a q).mpr ⟨j, h1, ?_⟩, hc⟩
      rw [List.getElem?_drop]; exact h2
  · intro previous index
    rw [update_eq g { nl with neighbors_ := previous, indexes_ := index } positions hlen]
    rfl

/-- C1, on a line: owners at 0 and 10, candidates at 1 and 2, cutoff 2: the
candidate at distance exactly 2 is kept, those at distances 9 and 8 are not. -/
theorem update_neighbors_directScan_witness :
    linePositions.length = lineList.list0_.length + lineList.list1_.length ∧
    ∃ nl1 request, update lineGeometry lineList linePositions = some (nl1, request) ∧
      nl1.neighbors_ = [[1, 2], []] := by
  refine ⟨by decide, ?_⟩
  obtain ⟨nl1, request, h1, h2, -⟩ :=
    update_neighbors_directScan lineGeometry lineList linePositions (by decide)
  refine ⟨nl1, request, h1, ?_⟩
  rw [h2]
  decide

theorem getFullList_index (nl : NeighborList P R) : (getFullList nl).1.indexes_ = [] := by
  simp [getFullList, indexLoop_nil]

/-- C2: owners 0 and 3 with candidates 1 and 2 on a line, coordinates of the
right length: `update` returns the request 0, 3, 1, 2 and owner 0 has the two
neighbours 1 and 2, but the index rebuilt by `update` holds no element
(`indexes_.clear()` leaves it with size 0 and the stores that follow lie
outside it), so `getNeighbors(0)` finds no position for its neighbours. -/
theorem getNeighbors_after_update :
    ∃ nl1 request, update lineGeometry lineList linePositions = some (nl1, request) ∧
      request = [0, 3, 1, 2] ∧ nl1.neighbors_ = [[1, 2], []] ∧
      nl1.getNumberOfNeighbors 0 = some 2 ∧ nl1.indexes_ = [] ∧
      nl1.indexes_[1]? = none ∧ nl1.getNeighbors 0 = none := by
  refine ⟨_, _, update_eq lineGeometry lineList linePositions (by decide), ?_, ?_, ?_, ?_, ?_, ?_⟩
    <;> decide

/-- C3: owners 0 and 3 with candidates 1 and 2: the constructor sizes the
index for the atoms 0 to 3, `getFullList` returns 0, 3, 1, 2 and leaves an index
without elements (`indexes_.clear()` sets its size to 0, the stores
`indexes_[request[i]]=i` that follow lie outside it): no atom has an entry, and
`getNeighbors(0)` on the dense candidate set has no result. -/
theorem getFullList_index_lost :
    construct [0, 3] [1, 2] (2 : Int) 5 (none : Option Unit) = some lineList ∧
    lineList.indexes_.length = 4 ∧
    (getFullList lineList).2 = [0, 3, 1, 2] ∧
    (getFullList lineList).1.indexes_ = [] ∧
    (∀ a : Nat, (getFullList lineList).1.indexes_[a]? = none) ∧
    (getFullList lineList).1.getNeighbors 0 = none := by
  refine ⟨rfl, by decide, by decide, by decide, ?_, by decide⟩
  intro a
  rw [getFullList_index]; rfl

/-- C4: `getFullList` returns `list0` followed by `list1` (order and
duplicates kept, length `|list0| + |list1|`) and leaves `list0`, `list1`, the
neighbour sets, the cutoff, the box and the stride as they were. -/
theorem getFullList_request (nl : NeighborList P R) :
    (getFullList nl).2 = nl.list0_ ++ nl.list1_ ∧
    (getFullList nl).2.length = nl.list0_.length + nl.list1_.length ∧
    (getFullList nl).1.list0_ = nl.list0_ ∧
    (getFullList nl).1.list1_ = nl.list1_ ∧
    (getFullList nl).1.neighbors_ = nl.neighbors_ ∧
    (getFullList nl).1.distance_ = nl.distance_ ∧
    (getFullList nl).1.pbc_ = nl.pbc_ ∧
    (getFullList nl).1.stride_ = nl.stride_ := by
  simp [getFullList]

theorem sum_lengths_eq (rows : List (List Nat)) :
    (rows.map List.length).sum =
      ((List.range rows.length).map (fun i => ((rows[i]?).map List.length).getD 0)).sum := by
  congr 1
  apply List.ext_getElem?
  intro i
  by_cases hi : i < rows.length
  · simp [List.getElem?_range, hi, List.getElem?_eq_getElem]
  · have h1 : rows[i]? = none := List.getElem?_eq_none (by omega)
    have h2 : (List.range rows.length)[i]? = none :=
      List.getElem?_eq_none (by simp; omega)
    simp [h1, h2]

/-- C5: for positions of length `|list0| + |list1|`, the list `update`
returns is `list0` followed by the neighbour set it leaves for owner 0, then
that of owner 1, up to owner `|list0| - 1` (each the pruned set of the scan, in
`list1` order); its length is `|list0|` plus the sum over the owners of
`getNumberOfNeighbors`. -/
theorem update_request [LinearOrder R] [Zero R] (g : Geometry V P R)
    (nl : NeighborList P R) (positions : List V)
    (hlen : positions.length = nl.list0_.length + nl.list1_.length) :
    ∃ nl1 request, update g nl positions = some (nl1, request) ∧
      nl1.list0_ = nl.list0_ ∧
      nl1.neighbors_ = directScan g nl.pbc_ nl.distance_ nl.list0_.length nl.list1_ positions ∧
      nl1.neighbors_.length = nl.list0_.length ∧
      request = nl.list0_ ++ nl1.neighbors_.flatten ∧
      (∀ i, i < nl.list0_.length → ∃ k, nl1.getNumberOfNeighbors i = some k) ∧
      request.length = nl.list0_.length +
        ((List.range nl.list0_.length).map
          (fun i => (nl1.getNumberOfNeighbors i).getD 0)).sum := by
  have hn0 : nl.list0_.length ≤ positions.length := by omega
  have hsl := directScan_length g nl.pbc_ nl.distance_ nl.list0_.length nl.list1_ positions hn0
  refine ⟨_, _, update_eq g nl positions hlen, rfl, rfl, hsl, rfl, ?_, ?_⟩
  · intro i hi
    have : i < (directScan g nl.pbc_ nl.distance_ nl.list0_.length nl.list1_
        positions).length := by omega
    refine ⟨(directScan g nl.pbc_ nl.distance_ nl.list0_.length nl.list1_
        positions)[i].length, ?_⟩
    simp [getNumberOfNeighbors, List.getElem?_eq_getElem this]
  · rw [List.length_append, List.length_flatten, sum_lengths_eq, hsl]
    rfl

/-- C5, on a line: owners 0 and 3, candidates 1 and 2 at distances 1 and 2 of
owner 0 and out of reach of owner 3: the request is 0, 3, 1, 2. -/
theorem update_request_witness :
    linePositions.length = lineList.list0_.length + lineList.list1_.length ∧
    ∃ nl1 request, update lineGeometry lineList linePositions = some (nl1, request) ∧
      request = [0, 3, 1, 2] ∧ request.length = 2 + (2 + 0) := by
  refine ⟨by decide, ?_⟩
  obtain ⟨nl1, request, h1, -, -, -, h2, -, -⟩ :=
    update_request lineGeometry lineList linePositions (by decide)
  have h := update_eq lineGeometry lineList linePositions (by decide)
  rw [h] at h1
  injection h1 with h1
  injection h1 with h3 h4
  subst h4
  exact ⟨nl1, _, by rw [h, ← h3], by decide, by decide⟩

theorem construct_cons (x y : Nat) (xs ys : List Nat) (distance : R) (stride : Nat)
    (pbc : Option P) :
    construct (x :: xs) (y :: ys) distance stride pbc = some
      { list0_ := x :: xs, list1_ := y :: ys, distance_ := distance, pbc_ := pbc,
        stride_ := stride,
        indexes_ := vresize [] ((max (xs.foldl max x) (ys.foldl max y) + 1) % UNSIGNED_RANGE) 0,
        neighbors_ := List.replicate (x :: xs).length (y :: ys) } := by
  have h := construct_neighbors (x :: xs) (y :: ys)
  unfold construct
  simp only [max_element, Option.bind_eq_bind, Option.some_bind, Option.pure_def] at h ⊢
  rw [h]
  rfl

/-- C6: for non-empty `list0` and `list1` the constructor returns an object
in which the neighbour set of every owner `i < |list0|` is the whole of `list1`
in order, so `getNumberOfNeighbors(i) = |list1|`, and
`getNumberOfAtoms() = |list0|`. -/
theorem construct_dense (list0 list1 : List Nat) (distance : R) (stride : Nat)
    (pbc : Option P) (h0 : list0 ≠ []) (h1 : list1 ≠ []) :
    ∃ nl : NeighborList P R, construct list0 list1 distance stride pbc = some nl ∧
      nl.list0_ = list0 ∧ nl.list1_ = list1 ∧
      (∀ i, i < list0.length → nl.neighbors_[i]? = some list1) ∧
      (∀ i, i < list0.length → nl.getNumberOfNeighbors i = some list1.length) ∧
      nl.getNumberOfAtoms = list0.length := by
  obtain ⟨x, xs, rfl⟩ := List.exists_cons_of_ne_nil h0
  obtain ⟨y, ys, rfl⟩ := List.exists_cons_of_ne_nil h1
  refine ⟨_, construct_cons x y xs ys distance stride pbc, rfl, rfl, ?_, ?_, ?_⟩
  · intro i hi
    simp only [List.getElem?_replicate, hi, if_true]
  · intro i hi
    simp only [getNumberOfNeighbors, List.getElem?_replicate, hi, if_true, Option.map_some']
  · simp [getNumberOfAtoms]

/-- C6, for owners 0 and 3 and candidates 1 and 2: both owners start with the
neighbours 1 and 2. -/
theorem construct_dense_witness :
    ([0, 3] : List Nat) ≠ [] ∧ ([1, 2] : List Nat) ≠ [] ∧
    ∃ nl : NeighborList Unit Int, construct [0, 3] [1, 2] 2 5 none = some nl ∧
      nl.neighbors_[1]? = some [1, 2] ∧ nl.getNumberOfNeighbors 1 = some 2 ∧
      nl.getNumberOfAtoms = 2 := by
  refine ⟨by decide, by decide, ?_⟩
  obtain ⟨nl, h, -, -, h3, h4, h5⟩ :=
    construct_dense (P := Unit) [0, 3] [1, 2] (2 : Int) 5 none (by decide) (by decide)
  exact ⟨nl, h, h3 1 (by decide), h4 1 (by decide), h5⟩

/-- The constructor has no result exactly when `list0` is empty or `list1` is
empty: the maximum index of an empty list is undefined. -/
theorem construct_fails_iff (list0 list1 : List Nat) (distance : R) (stride : Nat)
    (pbc : Option P) :
    construct list0 list1 distance stride pbc = none ↔ list0 = [] ∨ list1 = [] := by
  constructor
  · intro h
    by_contra hne
    push_neg at hne
    obtain ⟨x, xs, rfl⟩ := List.exists_cons_of_ne_nil hne.1
    obtain ⟨y, ys, rfl⟩ := List.exists_cons_of_ne_nil hne.2
    rw [construct_cons] at h
    exact Option.noConfusion h
  · rintro (rfl | rfl)
    · simp [construct, max_element]
    · cases list0 <;> simp [construct, max_element]

/-- C7: the constructor tests neither list before it takes `*max_element` of
each. With no owner and the candidates 1 and 2, or with the owners 0 and 3 and
no candidate, `max_element` returns `end()`, there is no element to
dereference, and the constructor has no defined result: no error is reported,
the source has no statement that could report one. For all lists, this
undefined read is the only way in which the constructor has no result. -/
theorem construct_empty_unchecked :
    max_element [] = none ∧
    (construct (P := Unit) [] [1, 2] (2 : Int) 5 none).isNone = true ∧
    (construct (P := Unit) [0, 3] [] (2 : Int) 5 none).isNone = true ∧
    (construct (P := Unit) [0, 3] [1, 2] (2 : Int) 5 none).isSome = true ∧
    ∀ (list0 list1 : List Nat) (distance : Int) (stride : Nat) (pbc : Option Unit),
      construct list0 list1 distance stride pbc = none ↔
        max_element list0 = none ∨ max_element list1 = none := by
  refine ⟨rfl, rfl, rfl, rfl, ?_⟩
  intro list0 list1 distance stride pbc
  have hmax : ∀ l : List Nat, max_element l = none ↔ l = [] := by
    intro l
    cases l <;> simp [max_element]
  rw [construct_fails_iff, hmax, hmax]

/-- C8: owners 0 and 3 with candidates 1 and 2, and five coordinates where
four are required: `update` returns a request as if nothing were wrong, and
has replaced the neighbour sets (owner 3 loses both neighbours) and emptied
the index. -/
theorem update_wrong_length_silent :
    longPositions.length ≠ lineList.list0_.length + lineList.list1_.length ∧
    lineList.neighbors_ = [[1, 2], [1, 2]] ∧ lineList.indexes_ = [0, 0, 0, 0] ∧
    (update lineGeometry lineList longPositions).map
        (fun r => (r.2, r.1.neighbors_, r.1.indexes_)) =
      some ([0, 3, 1, 2], [[1, 2], []], []) := by
  refine ⟨by decide, rfl, rfl, by decide⟩

end NeighborList

namespace vesselbase
namespace ActionWithVessel
variable {σ α R : Type}

theorem vresize_length {β : Type} (v : List β) (n : Nat) (x : β) :
    (vresize v n x).length = n := by
  simp [vresize]; omega

theorem resizeLoop_spec (cb : Callbacks σ α R) (d : σ) :
    ∀ (vs : List (Vessel α)) (s : Nat),
      s + ((resizeLoop cb d vs s).1.map Vessel.bufsize).sum < UNSIGNED_RANGE →
      (resizeLoop cb d vs s).1.length = vs.length ∧
      (resizeLoop cb d vs s).2 = s + ((resizeLoop cb d vs s).1.map Vessel.bufsize).sum ∧
      (∀ (i : Nat) (v : Vessel α), (resizeLoop cb d vs s).1[i]? = some v →
        v.bufstart = s + (((resizeLoop cb d vs s).1.take i).map Vessel.bufsize).sum) ∧
      (∀ (i : Nat) (v v0 : Vessel α), (resizeLoop cb d vs s).1[i]? = some v → vs[i]? = some v0 →
        (v.bufsize, v.self) = cb.resize { v0 with bufstart := v.bufstart } d) := by
  intro vs
  induction vs with
  | nil => intro s _; simp [resizeLoop]
  | cons v0 rest ih =>
    intro s h
    simp only [resizeLoop, List.map_cons, List.sum_cons] at h ⊢
    have hlt : s + (cb.resize { v0 with bufstart := s } d).1 < UNSIGNED_RANGE := by omega
    rw [Nat.mod_eq_of_lt hlt] at h ⊢
    obtain ⟨h1, h2, h3, h4⟩ := ih (s + (cb.resize { v0 with bufstart := s } d).1) (by omega)
    refine ⟨by simp [h1], by rw [h2]; omega, ?_, ?_⟩
    · intro i v hv
      cases i with
      | zero =>
        simp only [List.getElem?_cons_zero, Option.some.injEq] at hv
        subst hv
        simp
      | succ i =>
        simp only [List.getElem?_cons_succ] at hv
        rw [h3 i v hv]
        simp only [List.take_succ_cons, List.map_cons, List.sum_cons]
        omega
    · intro i v w hv hw
      cases i with
      | zero =>
        simp only [List.getElem?_cons_zero, Option.some.injEq] at hv hw
        subst hv; subst hw
        rfl
      | succ i =>
        simp only [List.getElem?_cons_succ] at hv hw
        exact h4 i v w hv hw

theorem sum_take_succ (l : List Nat) (i x : Nat) (h : l[i]? = some x) :
    (l.take (i + 1)).sum = (l.take i).sum + x := by
  rw [take_succ_of_getElem? l i x h, List.sum_append]; simp

theorem sum_take_mono (l : List Nat) (i j : Nat) (h : i ≤ j) :
    (l.take i).sum ≤ (l.take j).sum := by
  induction l generalizing i j with
  | nil => simp
  | cons x xs ih =>
    cases i with
    | zero => simp
    | succ i =>
      cases j with
      | zero => omega
      | succ j =>
        simp only [List.take_succ_cons, List.sum_cons]
        have := ih i j (by omega)
        omega

theorem sum_take_le (l : List Nat) (i : Nat) : (l.take i).sum ≤ l.sum := by
  calc (l.take i).sum ≤ (l.take i).sum + (l.drop i).sum := Nat.le_add_right _ _
    _ = l.sum := by rw [← List.sum_append, List.take_append_drop]

theorem exists_slice (l : List Nat) (k : Nat) (h : k < l.sum) :
    ∃ i x, l[i]? = some x ∧ (l.take i).sum ≤ k ∧ k < (l.take i).sum + x := by
  induction l generalizing k with
  | nil => simp at h
  | cons x xs ih =>
    by_cases hk : k < x
    · exact ⟨0, x, by simp, by simp, by simpa using hk⟩
    · simp only [List.sum_cons] at h
      obtain ⟨i, y, h1, h2, h3⟩ := ih (k - x) (by omega)
      refine ⟨i + 1, y, by simpa using h1, ?_, ?_⟩
      · simp only [List.take_succ_cons, List.sum_cons]; omega
      · simp only [List.take_succ_cons, List.sum_cons]; omega

/-- C9: after `resizeFunctions`, when the sum of the `bufsize` values fits
the type `unsigned`: every vessel has the `bufsize` (and state) its own
`resize()` set, called with `bufstart` already assigned; the `bufstart` of the
`i`-th vessel is the sum of the `bufsize` values of the vessels registered
before it; the buffer's length is the sum of all `bufsize` values; every
slice `[bufstart, bufstart + bufsize)` lies within the buffer, two different
vessels' slices share no element, and every buffer element is in a slice. -/
theorem resizeFunctions_slices [Zero R] (cb : Callbacks σ α R)
    (a : ActionWithVessel σ α R)
    (hrange : ((resizeFunctions cb a).functions.map Vessel.bufsize).sum < UNSIGNED_RANGE) :
    (resizeFunctions cb a).functions.length = a.functions.length ∧
    (∀ (i : Nat) (v v0 : Vessel α), (resizeFunctions cb a).functions[i]? = some v →
      a.functions[i]? = some v0 →
      (v.bufsize, v.self) = cb.resize { v0 with bufstart := v.bufstart } a.derived) ∧
    (∀ (i : Nat) (v : Vessel α), (resizeFunctions cb a).functions[i]? = some v →
      v.bufstart = (((resizeFunctions cb a).functions.take i).map Vessel.bufsize).sum) ∧
    (resizeFunctions cb a).buffer.length =
      ((resizeFunctions cb a).functions.map Vessel.bufsize).sum ∧
    (∀ (i : Nat) (v : Vessel α), (resizeFunctions cb a).functions[i]? = some v →
      v.bufstart + v.bufsize ≤ (resizeFunctions cb a).buffer.length) ∧
    (∀ (i j : Nat) (vi vj : Vessel α) (k : Nat), i ≠ j →
      (resizeFunctions cb a).functions[i]? = some vi →
      (resizeFunctions cb a).functions[j]? = some vj →
      vi.bufstart ≤ k → k < vi.bufstart + vi.bufsize →
      ¬ (vj.bufstart ≤ k ∧ k < vj.bufstart + vj.bufsize)) ∧
    (∀ k, k < (resizeFunctions cb a).buffer.length →
      ∃ (i : Nat) (v : Vessel α), (resizeFunctions cb a).functions[i]? = some v ∧
        v.bufstart ≤ k ∧ k < v.bufstart + v.bufsize) := by
  have hfs : (resizeFunctions cb a).functions = (resizeLoop cb a.derived a.functions 0).1 := rfl
  have hbuf : (resizeFunctions cb a).buffer.length = (resizeLoop cb a.derived a.functions 0).2 := by
    simp [resizeFunctions, vresize_length]
  rw [hfs] at hrange
  obtain ⟨h1, h2, h3, h4⟩ := resizeLoop_spec cb a.derived a.functions 0 (by omega)
  rw [hbuf, hfs]
  simp only [Nat.zero_add] at h2 h3
  -- start and end of a slice as prefix sums of the sizes
  have hstart : ∀ (i : Nat) (v : Vessel α),
      (resizeLoop cb a.derived a.functions 0).1[i]? = some v →
      v.bufstart = (((resizeLoop cb a.derived a.functions 0).1.map Vessel.bufsize).take i).sum := by
    intro i v hv
    rw [h3 i v hv, List.map_take]
  have hend : ∀ (i : Nat) (v : Vessel α),
      (resizeLoop cb a.derived a.functions 0).1[i]? = some v →
      v.bufstart + v.bufsize =
        (((resizeLoop cb a.derived a.functions 0).1.map Vessel.bufsize).take (i + 1)).sum := by
    intro i v hv
    rw [hstart i v hv, sum_take_succ _ i v.bufsize (by simp [List.getElem?_map, hv])]
  have hlt : ∀ (i j : Nat) (vi vj : Vessel α), i < j →
      (resizeLoop cb a.derived a.functions 0).1[i]? = some vi →
      (resizeLoop cb a.derived a.functions 0).1[j]? = some vj →
      vi.bufstart + vi.bufsize ≤ vj.bufstart := by
    intro i j vi vj hij hi hj
    rw [hend i vi hi, hstart j vj hj]
    exact sum_take_mono _ _ _ hij
  refine ⟨h1, h4, h3, h2, ?_, ?_, ?_⟩
  · intro i v hv
    rw [hend i v hv, h2]
    exact sum_take_le _ _
  · intro i j vi vj k hij hi hj hk1 hk2 hk
    rcases Nat.lt_or_gt_of_ne hij with h | h
    · have := hlt i j vi vj h hi hj
      omega
    · have := hlt j i vj vi h hj hi
      omega
  · intro k hk
    rw [h2] at hk
    obtain ⟨i, x, hx, hk1, hk2⟩ := exists_slice _ k hk
    rw [List.getElem?_map] at hx
    cases hv : (resizeLoop cb a.derived a.functions 0).1[i]? with
    | none => rw [hv] at hx; simp at hx
    | some v =>
      rw [hv] at hx
      simp only [Option.map_some', Option.some.injEq] at hx
      refine ⟨i, v, hv, ?_, ?_⟩
      · rw [hstart i v hv]; exact hk1
      · rw [hstart i v hv, hx]; exact hk2

/-- C9, for two vessels that ask for 3 and 5 buffer elements: the slices are
`[0, 3)` and `[3, 8)` and the buffer has 8 elements. -/
theorem resizeFunctions_slices_witness :
    ((resizeFunctions (plainCallbacks 2 0) plainAction).functions.map Vessel.bufsize).sum
      < UNSIGNED_RANGE ∧
    (resizeFunctions (plainCallbacks 2 0) plainAction).functions.map
      (fun v => (v.bufstart, v.bufsize)) = [(0, 3), (3, 5)] ∧
    (resizeFunctions (plainCallbacks 2 0) plainAction).buffer.length =
      ((resizeFunctions (plainCallbacks 2 0) plainAction).functions.map Vessel.bufsize).sum :=
  ⟨by decide, by decide,
    (resizeFunctions_slices (plainCallbacks 2 0) plainAction (by decide)).2.2.2.1⟩

theorem performed_append (l₁ l₂ : List Event) :
    performed (l₁ ++ l₂) = performed l₁ ++ performed l₂ := by
  induction l₁ with
  | nil => rfl
  | cons e rest ih => cases e <;> simp [performed, ih]

theorem calculateLoop_performed (cb : Callbacks σ α R) (i : Nat) :
    ∀ (n j : Nat) (a : ActionWithVessel σ α R) (keep : Bool) (tr : List Event),
      performed (calculateLoop cb i n j (a, keep, tr)).2.2 = performed tr := by
  intro n
  induction n with
  | zero => intro j a keep tr; rfl
  | succ n ih =>
    intro j a keep tr
    simp only [calculateLoop]
    cases a.functions[j]? with
    | none => rfl
    | some v =>
      simp only
      rw [ih, performed_append]
      simp [performed]

theorem finishLoop_performed (cb : Callbacks σ α R) :
    ∀ (n j : Nat) (a : ActionWithVessel σ α R) (tr : List Event),
      performed (finishLoop cb n j (a, tr)).2 = performed tr := by
  intro n
  induction n with
  | zero => intro j a tr; rfl
  | succ n ih =>
    intro j a tr
    simp only [finishLoop]
    cases a.functions[j]? with
    | none => rfl
    | some v =>
      simp only
      rw [ih, performed_append]
      simp [performed]

theorem taskLoop_performed [Zero R] (cb : Callbacks σ α R) (stride ntasks : Nat)
    (hs : 1 ≤ stride) (hrange : ntasks + stride ≤ UNSIGNED_RANGE)
    (hdbg : assertionsHold cb) :
    ∀ (fuel i : Nat) (a : ActionWithVessel σ α R) (tr : List Event), ntasks ≤ i + fuel →
      ∃ a1 tr1, taskLoop cb stride ntasks fuel i (a, tr) = Except.ok (a1, tr1) ∧
        performed tr1 = performed tr ++ stridedFrom stride ntasks fuel i := by
  intro fuel
  induction fuel with
  | zero =>
    intro i a tr h
    have : ¬ i < ntasks := by omega
    exact ⟨a, tr, by simp [taskLoop, this], by simp [stridedFrom]⟩
  | succ fuel ih =>
    intro i a tr h
    by_cases hi : i < ntasks
    · have hmod : (i + stride) % UNSIGNED_RANGE = i + stride := Nat.mod_eq_of_lt (by omega)
      have hnext : ntasks ≤ i + stride + fuel := by omega
      have hassert : ∀ d, (cb.debug && !cb.isPossibleToSkip d) = false := by
        intro d
        rcases hdbg with h1 | h1
        · simp [h1]
        · simp [h1 d]
      simp only [taskLoop, if_pos hi, stridedFrom, hmod]
      cases hskip : (cb.performTask i a.taskSide).1 with
      | true =>
        simp only [if_true, hassert, Bool.false_eq_true, if_false]
        obtain ⟨a1, tr1, h1, h2⟩ := ih (i + stride)
          { a with derived := cb.deactivate_task (cb.performTask i a.taskSide).2.derived,
                   thisval := (cb.performTask i a.taskSide).2.thisval,
                   derivatives := (cb.performTask i a.taskSide).2.derivatives }
          (tr ++ [Event.performTask i] ++ [Event.deactivate_task i]) hnext
        refine ⟨a1, tr1, h1, ?_⟩
        rw [h2]
        simp [performed_append, performed]
      | false =>
        simp only [Bool.false_eq_true, if_false]
        split
        · obtain ⟨a1, tr1, h1, h2⟩ := ih (i + stride) _ _ hnext
          refine ⟨a1, tr1, h1, ?_⟩
          rw [h2, performed_append, calculateLoop_performed]
          simp [performed_append, performed]
        · obtain ⟨a1, tr1, h1, h2⟩ := ih (i + stride) _ _ hnext
          refine ⟨a1, tr1, h1, ?_⟩
          rw [h2, calculateLoop_performed]
          simp [performed_append, performed]
    · exact ⟨a, tr, by simp [taskLoop, hi], by simp [stridedFrom, hi]⟩

theorem stridedFrom_ge (stride ntasks : Nat) :
    ∀ (fuel i j : Nat), j ∈ stridedFrom stride ntasks fuel i → i ≤ j := by
  intro fuel
  induction fuel with
  | zero => intro i j h; simp [stridedFrom] at h
  | succ fuel ih =>
    intro i j h
    simp only [stridedFrom] at h
    split at h
    · rcases List.mem_cons.mp h with h1 | h1
      · omega
      · have := ih _ _ h1; omega
    · simp at h

theorem stridedFrom_sorted (stride ntasks : Nat) (hs : 1 ≤ stride) :
    ∀ (fuel i : Nat), List.Sorted (· < ·) (stridedFrom stride ntasks fuel i) := by
  intro fuel
  induction fuel with
  | zero => intro i; simp [stridedFrom]
  | succ fuel ih =>
    intro i
    simp only [stridedFrom]
    split
    · refine List.sorted_cons.mpr ⟨?_, ih _⟩
      intro b hb
      have := stridedFrom_ge stride ntasks _ _ _ hb
      omega
    · simp

theorem mem_stridedFrom (stride ntasks : Nat) (hs : 1 ≤ stride) :
    ∀ (fuel i j : Nat), ntasks ≤ i + fuel →
      (j ∈ stridedFrom stride ntasks fuel i ↔ i ≤ j ∧ j < ntasks ∧ stride ∣ j - i) := by
  intro fuel
  induction fuel with
  | zero =>
    intro i j h
    simp only [stridedFrom, List.not_mem_nil, false_iff]
    omega
  | succ fuel ih =>
    intro i j h
    simp only [stridedFrom]
    split
    · rename_i hi
      rw [List.mem_cons, ih (i + stride) j (by omega)]
      constructor
      · rintro (rfl | ⟨h1, h2, h3⟩)
        · exact ⟨Nat.le_refl _, hi, by simp⟩
        · refine ⟨by omega, h2, ?_⟩
          have : j - i = (j - (i + stride)) + stride := by omega
          rw [this]
          exact Nat.dvd_add h3 (Nat.dvd_refl _)
      · rintro ⟨h1, h2, h3⟩
        by_cases hji : j = i
        · exact Or.inl hji
        · right
          obtain ⟨c, hc⟩ := h3
          have hcpos : 1 ≤ c := by
            rcases Nat.eq_zero_or_pos c with h0 | h0
            · subst h0; omega
            · exact h0
          have hle : stride ≤ stride * c := Nat.le_mul_of_pos_right _ hcpos
          refine ⟨by omega, h2, ⟨c - 1, ?_⟩⟩
          have : stride * (c - 1) = stride * c - stride := by
            rw [Nat.mul_sub, Nat.mul_one]
          rw [this]; omega
    · rename_i hi
      simp only [List.not_mem_nil, false_iff]
      omega

theorem stridedFrom_eq_filter (stride ntasks fuel rank : Nat) (hr : rank < stride)
    (hfuel : ntasks ≤ fuel) :
    stridedFrom stride ntasks fuel rank
      = (List.range ntasks).filter (fun j => decide (j % stride = rank)) := by
  have hs : 1 ≤ stride := by omega
  refine List.eq_of_perm_of_sorted ?_ (stridedFrom_sorted stride ntasks hs fuel rank)
    ((List.sorted_lt_range ntasks).filter _)
  rw [List.perm_ext_iff_of_nodup (stridedFrom_sorted stride ntasks hs fuel rank).nodup
    ((List.nodup_range ntasks).filter _)]
  intro j
  rw [mem_stridedFrom stride ntasks hs fuel rank j (by omega)]
  simp only [List.mem_filter, List.mem_range, decide_eq_true_eq]
  constructor
  · rintro ⟨h1, h2, c, hc⟩
    refine ⟨h2, ?_⟩
    have hj : j = rank + stride * c := by omega
    rw [hj, Nat.add_mul_mod_self_left, Nat.mod_eq_of_lt hr]
  · rintro ⟨h1, h2⟩
    have hdm := Nat.div_add_mod j stride
    rw [h2] at hdm
    refine ⟨by omega, h1, ⟨j / stride, by omega⟩⟩

theorem runAllTasks_performed [Zero R] (cb : Callbacks σ α R) (a : ActionWithVessel σ α R)
    (ntasks fuel : Nat) (hread : a.read = true) (hr : rankOf cb a < strideOf cb a)
    (hfuel : ntasks ≤ fuel) (hrange : ntasks + strideOf cb a ≤ UNSIGNED_RANGE)
    (hdbg : assertionsHold cb) :
    ∃ a1 tr, runAllTasks cb a ntasks fuel = Except.ok (a1, tr) ∧
      performed tr =
        (List.range ntasks).filter (fun j => decide (j % strideOf cb a = rankOf cb a)) := by
  obtain ⟨a1, tr1, h1, h2⟩ := taskLoop_performed cb (strideOf cb a) ntasks (by omega) hrange
    hdbg fuel (rankOf cb a) a [] (by omega)
  unfold runAllTasks
  simp only [hread, Bool.not_true, Bool.false_eq_true, if_false, h1]
  refine ⟨_, _, rfl, ?_⟩
  rw [finishLoop_performed]
  split
  · rw [performed_append, h2, stridedFrom_eq_filter _ _ _ _ hr hfuel]
    simp [performed]
  · rw [h2, stridedFrom_eq_filter _ _ _ _ hr hfuel]
    simp [performed]

/-- C10: `stride ≥ 1` workers, worker `r` running with stride `stride` and
first task `r` (`comm.Get_size()` and `comm.Get_rank()`, or 1 and 0 when
serial), on `ntasks` tasks with `ntasks + stride` within the type `unsigned`
and no failing assertion.  The pass of worker `r` returns, and its calls to
`performTask` are exactly the indices `j < ntasks` with `j mod stride = r`,
each once, in ascending order; a single worker with stride 1 performs
`0, ..., ntasks - 1`; and every task index below `ntasks` is performed by
exactly one of the workers. -/
theorem runAllTasks_schedule [Zero R] (stride ntasks fuel : Nat)
    (cbs : Nat → Callbacks σ α R) (acts : Nat → ActionWithVessel σ α R)
    (hstride : 1 ≤ stride) (hfuel : ntasks ≤ fuel)
    (hrange : ntasks + stride ≤ UNSIGNED_RANGE)
    (hworker : ∀ r, r < stride → (acts r).read = true ∧
      strideOf (cbs r) (acts r) = stride ∧ rankOf (cbs r) (acts r) = r ∧
      assertionsHold (cbs r)) :
    (∀ r, r < stride → ∃ a1 tr,
      runAllTasks (cbs r) (acts r) ntasks fuel = Except.ok (a1, tr) ∧
      performed tr = (List.range ntasks).filter (fun j => decide (j % stride = r)) ∧
      (performed tr).Nodup ∧ List.Sorted (· < ·) (performed tr)) ∧
    (stride = 1 → tasksOf (cbs 0) (acts 0) ntasks fuel = List.range ntasks) ∧
    (∀ j, j < ntasks →
      ∃! r, r < stride ∧ j ∈ tasksOf (cbs r) (acts r) ntasks fuel) := by
  have hrun : ∀ r, r < stride → ∃ a1 tr,
      runAllTasks (cbs r) (acts r) ntasks fuel = Except.ok (a1, tr) ∧
      performed tr = (List.range ntasks).filter (fun j => decide (j % stride = r)) := by
    intro r hr
    obtain ⟨h1, h2, h3, h4⟩ := hworker r hr
    have := runAllTasks_performed (cbs r) (acts r) ntasks fuel h1 (by omega) hfuel
      (by omega) h4
    rw [h2, h3] at this
    exact this
  have htasks : ∀ r, r < stride → tasksOf (cbs r) (acts r) ntasks fuel
      = (List.range ntasks).filter (fun j => decide (j % stride = r)) := by
    intro r hr
    obtain ⟨a1, tr, h1, h2⟩ := hrun r hr
    simp only [tasksOf, h1, h2]
  refine ⟨?_, ?_, ?_⟩
  · intro r hr
    obtain ⟨a1, tr, h1, h2⟩ := hrun r hr
    refine ⟨a1, tr, h1, h2, ?_, ?_⟩
    · rw [h2]; exact (List.nodup_range ntasks).filter _
    · rw [h2]; exact (List.sorted_lt_range ntasks).filter _
  · intro h1
    subst h1
    rw [htasks 0 (by omega)]
    simp [Nat.mod_one]
  · intro j hj
    refine ⟨j % stride, ⟨Nat.mod_lt _ (by omega), ?_⟩, ?_⟩
    · rw [htasks _ (Nat.mod_lt _ (by omega))]
      simp [hj]
    · rintro r ⟨hr, hmem⟩
      rw [htasks r hr] at hmem
      simp only [List.mem_filter, List.mem_range, decide_eq_true_eq] at hmem
      exact hmem.2.symm

/-- C10, for three workers and ten tasks: worker 1 performs tasks 1, 4, 7. -/
theorem runAllTasks_schedule_witness :
    (1 ≤ 3 ∧ 10 ≤ 10 ∧ 10 + 3 ≤ UNSIGNED_RANGE) ∧
    (∀ r, r < 3 → plainAction.read = true ∧
      strideOf (plainCallbacks 3 r) plainAction = 3 ∧
      rankOf (plainCallbacks 3 r) plainAction = r ∧ assertionsHold (plainCallbacks 3 r)) ∧
    tasksOf (plainCallbacks 3 1) plainAction 10 10 = [1, 4, 7] ∧
    (∀ j, j < 10 →
      ∃! r, r < 3 ∧ j ∈ tasksOf (plainCallbacks 3 r) plainAction 10 10) := by
  have hw : ∀ r, r < 3 → plainAction.read = true ∧
      strideOf (plainCallbacks 3 r) plainAction = 3 ∧
      rankOf (plainCallbacks 3 r) plainAction = r ∧ assertionsHold (plainCallbacks 3 r) :=
    fun r _ => ⟨rfl, rfl, rfl, Or.inl rfl⟩
  have h := runAllTasks_schedule 3 10 10 (fun r => plainCallbacks 3 r) (fun _ => plainAction)
    (by decide) (by decide) (by decide) hw
  exact ⟨⟨by decide, by decide, by decide⟩, hw, by decide, h.2.2⟩

theorem getVesselLoop_eq_find (getLabel : Vessel α → Option String) (name : String)
    (fs : List (Vessel α)) :
    getVesselLoop getLabel name fs = fs.find? (fun v => decide (getLabel v = some name)) := by
  induction fs with
  | nil => rfl
  | cons v rest ih =>
    simp only [getVesselLoop, List.find?_cons]
    cases h : getLabel v with
    | none => simp [ih]
    | some myname =>
      by_cases hn : myname = name
      · simp [hn]
      · simp [hn, ih]

/-- C19: `getVessel(name)` returns the first vessel, in registration order,
whose label is `name`: every vessel registered before it has no label or
another one; it ends with the error `there is no vessel with name ...`
exactly when no attached vessel has the label `name`; a vessel without label
is never returned. -/
theorem getVessel_first_labelled (getLabel : Vessel α → Option String)
    (a : ActionWithVessel σ α R) (name : String) :
    (∀ v, getVessel getLabel a name = Except.ok v ↔
      a.functions.find? (fun u => decide (getLabel u = some name)) = some v) ∧
    (∀ v, getVessel getLabel a name = Except.ok v →
      getLabel v = some name ∧
      ∃ before after, a.functions = before ++ v :: after ∧
        ∀ u ∈ before, getLabel u ≠ some name) ∧
    (getVessel getLabel a name = Except.error ("there is no vessel with name " ++ name) ↔
      ∀ v ∈ a.functions, getLabel v ≠ some name) ∧
    (∀ msg, getVessel getLabel a name = Except.error msg →
      msg = "there is no vessel with name " ++ name) := by
  have hloop := getVesselLoop_eq_find getLabel name a.functions
  have hok : ∀ v, getVessel getLabel a name = Except.ok v ↔
      a.functions.find? (fun u => decide (getLabel u = some name)) = some v := by
    intro v
    unfold getVessel
    rw [hloop]
    cases a.functions.find? (fun u => decide (getLabel u = some name)) with
    | none => simp
    | some w => simp
  refine ⟨hok, ?_, ?_, ?_⟩
  · intro v hv
    have hf := (hok v).mp hv
    refine ⟨by simpa using List.find?_some hf, ?_⟩
    obtain ⟨_, before, after, h1, h2⟩ := List.find?_eq_some.mp hf
    exact ⟨before, after, h1, fun u hu => by simpa using h2 u hu⟩
  · unfold getVessel
    rw [hloop]
    cases h : a.functions.find? (fun u => decide (getLabel u = some name)) with
    | none =>
      simp only [true_iff]
      intro v hv
      simpa using List.find?_eq_none.mp h v hv
    | some w =>
      constructor
      · intro hc; cases hc
      · intro hall
        exact absurd (by simpa using List.find?_some h) (hall w (List.mem_of_find?_eq_some h))
  · intro msg
    unfold getVessel
    cases getVesselLoop getLabel name a.functions with
    | none => intro h; injection h with h; exact h.symm
    | some w => intro h; cases h

/-- C19, for three vessels of which the second and third are labelled `lt`:
the second one is returned for `lt`, and `gt` ends with the error. -/
theorem getVessel_first_labelled_witness :
    getVessel labelOf labelledAction "lt" = Except.ok ⟨0, 1, "lt"⟩ ∧
    getVessel labelOf labelledAction "gt" = Except.error "there is no vessel with name gt" :=
  ⟨((getVessel_first_labelled labelOf labelledAction "lt").1 _).mpr (by
      simp [labelledAction, labelOf]),
   (getVessel_first_labelled labelOf labelledAction "gt").2.2.1.mpr (by
      simp [labelledAction, labelOf])⟩

/-- C13: an iteration of the task loop of `runAllTasks` for a task `i` for
which `performTask` returns the skip signal, when no debug assertion fails:
the loop calls `deactivate_task()` once, calls no vessel's `calculate`, leaves
the buffer and the vessels as they were, and goes on with task `i + stride`. -/
theorem taskLoop_skips [Zero R] (cb : Callbacks σ α R)
    (stride ntasks fuel i : Nat) (a : ActionWithVessel σ α R) (tr : List Event)
    (hi : i < ntasks) (hskip : (cb.performTask i a.taskSide).1 = true)
    (hassert : assertionsHold cb) :
    taskLoop cb stride ntasks (fuel + 1) i (a, tr) =
      taskLoop cb stride ntasks fuel ((i + stride) % UNSIGNED_RANGE)
        ({ afterPerform cb i a with
            derived := cb.deactivate_task (afterPerform cb i a).derived },
         tr ++ [Event.performTask i, Event.deactivate_task i]) ∧
    ({ afterPerform cb i a with
        derived := cb.deactivate_task (afterPerform cb i a).derived }).buffer = a.buffer ∧
    ({ afterPerform cb i a with
        derived := cb.deactivate_task (afterPerform cb i a).derived }).functions
      = a.functions := by
  have hassert1 : ∀ d, (cb.debug && !cb.isPossibleToSkip d) = false := by
    intro d
    rcases hassert with h1 | h1
    · simp [h1]
    · simp [h1 d]
  refine ⟨?_, rfl, rfl⟩
  simp only [taskLoop, if_pos hi, hskip, if_true, hassert1, Bool.false_eq_true, if_false,
    afterPerform, List.append_assoc, List.singleton_append]

/-- C13, for a task source whose every task signals skip: the iteration for
task 0 is `performTask(0)` followed by `deactivate_task()`, and the buffer
still holds 0. -/
theorem taskLoop_skips_witness :
    (0 < 2 ∧ (skipCallbacks.performTask 0 skipAction.taskSide).1 = true ∧
      assertionsHold skipCallbacks) ∧
    ∃ a2, taskLoop skipCallbacks 1 2 2 0 (skipAction, []) =
      taskLoop skipCallbacks 1 2 1 ((0 + 1) % UNSIGNED_RANGE)
        (a2, [Event.performTask 0, Event.deactivate_task 0]) ∧ a2.buffer = [0] :=
  ⟨⟨by decide, rfl, Or.inr (fun _ => rfl)⟩, _,
    (taskLoop_skips skipCallbacks 1 2 1 0 skipAction [] (by decide) rfl
      (Or.inr (fun _ => rfl))).1, rfl⟩

/-- C14: one sum vessel on a buffer of one element, three tasks of values 1,
2, 3, serial pass: from a buffer that holds 0 the pass leaves 6; from a
buffer in which an earlier pass left 5 it leaves 11: `runAllTasks` adds to what
the buffer held (its `buffer.assign(buffer.size(),0.0)` is commented out), it
is `clearBuffers()` that sets the buffer to zero. -/
theorem runAllTasks_keeps_buffer :
    (runAllTasks (sumCallbacks 1 0 []) (sumAction true 0) 3 3).toOption.map
      (fun r => r.1.buffer) = some [6] ∧
    (runAllTasks (sumCallbacks 1 0 []) (sumAction true 5) 3 3).toOption.map
      (fun r => r.1.buffer) = some [11] ∧
    (clearBuffers (sumAction true 5)).buffer = [0] := by
  refine ⟨by decide, by decide, by decide⟩

/-- C15: one derivative, zero when the pass starts, and tasks that add 1 to
it through `addElementDerivative` and then signal skip: after the iteration
for task 0 the derivative vector holds 1 (it is what `performTask(1)` finds),
and it holds 2 when a pass over two tasks ends: the skip branch leaves the
loop body before the loop that clears the derivatives. -/
theorem skip_keeps_derivatives :
    skipAction.derivatives = [0] ∧
    (runAllTasks skipCallbacks skipAction 1 1).toOption.map
      (fun r => r.1.derivatives) = some [1] ∧
    (runAllTasks skipCallbacks skipAction 2 2).toOption.map
      (fun r => (r.1.derivatives, r.2)) =
        some ([2], [Event.performTask 0, Event.deactivate_task 0, Event.performTask 1,
          Event.deactivate_task 1, Event.finish 0]) := by
  refine ⟨rfl, by decide, by decide⟩

theorem calculateLoop_frame (cb : Callbacks σ α R) (i : Nat) :
    ∀ (n j : Nat) (a : ActionWithVessel σ α R) (keep : Bool) (tr : List Event),
      (calculateLoop cb i n j (a, keep, tr)).1.functions.length = a.functions.length ∧
      (calculateLoop cb i n j (a, keep, tr)).1.read = a.read ∧
      (calculateLoop cb i n j (a, keep, tr)).1.serial = a.serial ∧
      ∃ ev, (calculateLoop cb i n j (a, keep, tr)).2.2 = tr ++ ev ∧
        ∀ e ∈ ev, ∃ k, e = Event.calculate k i := by
  intro n
  induction n with
  | zero => intro j a keep tr; exact ⟨rfl, rfl, rfl, [], by simp [calculateLoop], by simp⟩
  | succ n ih =>
    intro j a keep tr
    simp only [calculateLoop]
    cases hget : a.functions[j]? with
    | none => exact ⟨rfl, rfl, rfl, [], by simp, by simp⟩
    | some v =>
      simp only
      obtain ⟨h1, h2, h3, ev, h4, h5⟩ := ih (j + 1)
        { a with functions := a.functions.set j
                  { v with self := (cb.calculate v i a.tolerance a.taskSide a.buffer).2.1 },
                 buffer := (cb.calculate v i a.tolerance a.taskSide a.buffer).2.2 }
        (if (cb.calculate v i a.tolerance a.taskSide a.buffer).1 then true else keep)
        (tr ++ [Event.calculate j i])
      refine ⟨by rw [h1]; simp, h2, h3, Event.calculate j i :: ev, by rw [h4]; simp, ?_⟩
      intro e he
      rcases List.mem_cons.mp he with rfl | he
      · exact ⟨j, rfl⟩
      · exact h5 e he

theorem taskLoop_frame [Zero R] (cb : Callbacks σ α R) (stride ntasks : Nat) :
    ∀ (fuel i : Nat) (a : ActionWithVessel σ α R) (tr : List Event)
      (a1 : ActionWithVessel σ α R) (tr1 : List Event),
      taskLoop cb stride ntasks fuel i (a, tr) = Except.ok (a1, tr1) →
      a1.functions.length = a.functions.length ∧ a1.read = a.read ∧ a1.serial = a.serial ∧
      ∃ ev, tr1 = tr ++ ev ∧ (∀ e ∈ ev, isLoopEvent e = true) ∧
        (∀ j, Event.deactivate_task j ∈ ev → Event.performTask j ∈ ev) := by
  intro fuel
  induction fuel with
  | zero =>
    intro i a tr a1 tr1 h
    simp only [taskLoop] at h
    split at h
    · cases h
    · injection h with h
      injection h with h1 h2
      subst h1; subst h2
      exact ⟨rfl, rfl, rfl, [], by simp, by simp, by simp⟩
  | succ fuel ih =>
    intro i a tr a1 tr1 h
    simp only [taskLoop] at h
    split at h
    · split at h
      · split at h
        · cases h
        · obtain ⟨h1, h2, h3, ev, h4, h5, h6⟩ := ih _ _ _ _ _ h
          refine ⟨h1, h2, h3, Event.performTask i :: Event.deactivate_task i :: ev,
            by rw [h4]; simp, ?_, ?_⟩
          · intro e he
            rcases List.mem_cons.mp he with rfl | he
            · rfl
            · rcases List.mem_cons.mp he with rfl | he
              · rfl
              · exact h5 e he
          · intro j hj
            rcases List.mem_cons.mp hj with hj | hj
            · cases hj
            · rcases List.mem_cons.mp hj with hj | hj
              · injection hj with hj
                subst hj
                exact List.mem_cons_self _ _
              · exact List.mem_cons_of_mem _ (List.mem_cons_of_mem _ (h6 j hj))
      · obtain ⟨c1, c2, c3, cev, c4, c5⟩ := calculateLoop_frame cb i a.functions.length 0
          { a with derived := (cb.performTask i a.taskSide).2.derived,
                   thisval := (cb.performTask i a.taskSide).2.thisval,
                   derivatives := (cb.performTask i a.taskSide).2.derivatives }
          false (tr ++ [Event.performTask i])
        split at h
        · obtain ⟨h1, h2, h3, ev, h4, h5, h6⟩ := ih _ _ _ _ _ h
          refine ⟨by rw [h1]; exact c1, by rw [h2]; exact c2, by rw [h3]; exact c3,
            Event.performTask i :: (cev ++ Event.deactivate_task i :: ev),
            by rw [h4, c4]; simp, ?_, ?_⟩
          · intro e he
            rcases List.mem_cons.mp he with rfl | he
            · rfl
            · rcases List.mem_append.mp he with he | he
              · obtain ⟨k, rfl⟩ := c5 e he; rfl
              · rcases List.mem_cons.mp he with rfl | he
                · rfl
                · exact h5 e he
          · intro j hj
            rcases List.mem_cons.mp hj with hj | hj
            · cases hj
            · rcases List.mem_append.mp hj with hj | hj
              · obtain ⟨k, hk⟩ := c5 _ hj; cases hk
              · rcases List.mem_cons.mp hj with hj | hj
                · injection hj with hj
                  subst hj
                  exact List.mem_cons_self _ _
                · exact List.mem_cons_of_mem _
                    (List.mem_append_right _ (List.mem_cons_of_mem _ (h6 j hj)))
        · obtain ⟨h1, h2, h3, ev, h4, h5, h6⟩ := ih _ _ _ _ _ h
          refine ⟨by rw [h1]; exact c1, by rw [h2]; exact c2, by rw [h3]; exact c3,
            Event.performTask i :: (cev ++ ev), by rw [h4, c4]; simp, ?_, ?_⟩
          · intro e he
            rcases List.mem_cons.mp he with rfl | he
            · rfl
            · rcases List.mem_append.mp he with he | he
              · obtain ⟨k, rfl⟩ := c5 e he; rfl
              · exact h5 e he
          · intro j hj
            rcases List.mem_cons.mp hj with hj | hj
            · cases hj
            · rcases List.mem_append.mp hj with hj | hj
              · obtain ⟨k, hk⟩ := c5 _ hj; cases hk
              · exact List.mem_cons_of_mem _ (List.mem_append_right _ (h6 j hj))
    · injection h with h
      injection h with h1 h2
      subst h1; subst h2
      exact ⟨rfl, rfl, rfl, [], by simp, by simp, by simp⟩

theorem finishLoop_spec (cb : Callbacks σ α R) :
    ∀ (n j : Nat) (a : ActionWithVessel σ α R) (tr : List Event),
      j + n ≤ a.functions.length →
      (finishLoop cb n j (a, tr)).2 = tr ++ (List.range n).map (fun k => Event.finish (j + k)) ∧
      (finishLoop cb n j (a, tr)).1.buffer = a.buffer ∧
      (finishLoop cb n j (a, tr)).1.read = a.read ∧
      (finishLoop cb n j (a, tr)).1.serial = a.serial ∧
      (finishLoop cb n j (a, tr)).1.functions.length = a.functions.length := by
  intro n
  induction n with
  | zero => intro j a tr _; simp [finishLoop]
  | succ n ih =>
    intro j a tr h
    have hj : j < a.functions.length := by omega
    have hget : a.functions[j]? = some a.functions[j] := List.getElem?_eq_getElem hj
    simp only [finishLoop, hget]
    obtain ⟨h1, h2, h3, h4, h5⟩ := ih (j + 1)
      { a with functions := a.functions.set j
                { a.functions[j] with
                  self := (cb.finish a.functions[j] a.tolerance a.derived a.buffer).1 },
               derived := (cb.finish a.functions[j] a.tolerance a.derived a.buffer).2 }
      (tr ++ [Event.finish j]) (by simp; omega)
    refine ⟨?_, h2, h3, h4, by rw [h5]; simp⟩
    rw [h1, List.range_succ_eq_map]
    simp [List.map_map, Function.comp_def, Nat.add_assoc, Nat.add_comm 1]

theorem runAllTasks_trace [Zero R] (cb : Callbacks σ α R) (a : ActionWithVessel σ α R)
    (ntasks fuel : Nat) (a1 : ActionWithVessel σ α R) (tr : List Event)
    (h : runAllTasks cb a ntasks fuel = Except.ok (a1, tr)) :
    a1.read = a.read ∧ a1.serial = a.serial ∧ a.read = true ∧
    ∃ loopTr, (∀ e ∈ loopTr, isLoopEvent e = true) ∧
      (∀ j, Event.deactivate_task j ∈ loopTr → Event.performTask j ∈ loopTr) ∧
      tr = loopTr
        ++ (if !a.serial && decide (0 < (loopBuffer cb a ntasks fuel).length)
            then [Event.Sum] else [])
        ++ (List.range a.functions.length).map (fun j => Event.finish j) := by
  unfold runAllTasks at h
  cases hread : a.read with
  | false => simp [hread] at h
  | true =>
    simp only [hread, Bool.not_true, Bool.false_eq_true, if_false] at h
    cases hloop : taskLoop cb (strideOf cb a) ntasks fuel (rankOf cb a) (a, []) with
    | error e => simp [hloop] at h
    | ok r =>
      obtain ⟨a2, tr2⟩ := r
      obtain ⟨f1, f2, f3, ev, f4, f5, f6⟩ := taskLoop_frame cb _ _ _ _ _ _ _ _ hloop
      simp only [List.nil_append] at f4
      subst f4
      have hbuf : loopBuffer cb a ntasks fuel = a2.buffer := by
        simp [loopBuffer, hloop]
      simp only [hloop] at h
      injection h with h
      rw [hbuf, ← f3]
      by_cases hsum : (!a2.serial && decide (0 < a2.buffer.length)) = true
      · simp only [hsum, if_true] at h ⊢
        obtain ⟨g1, g2, g3, g4, g5⟩ := finishLoop_spec cb a2.functions.length 0
          { a2 with buffer := cb.Sum a2.buffer } (tr2 ++ [Event.Sum]) (by simp)
        rw [Prod.ext_iff] at h
        obtain ⟨h1, h2⟩ := h
        simp only at h1 h2
        refine ⟨by rw [← h1, g3, f2, hread], by rw [← h1, g4], trivial, tr2, f5, f6, ?_⟩
        rw [← h2, g1, f1]
        simp
      · simp only [hsum, Bool.false_eq_true, if_false] at h ⊢
        obtain ⟨g1, g2, g3, g4, g5⟩ := finishLoop_spec cb a2.functions.length 0 a2 tr2 (by simp)
        rw [Prod.ext_iff] at h
        obtain ⟨h1, h2⟩ := h
        simp only at h1 h2
        refine ⟨by rw [← h1, g3, f2, hread], by rw [← h1, g4], trivial, tr2, f5, f6, ?_⟩
        rw [← h2, g1, f1]
        simp

theorem mem_performed (tr : List Event) (j : Nat) :
    j ∈ performed tr ↔ Event.performTask j ∈ tr := by
  induction tr with
  | nil => simp [performed]
  | cons e rest ih => cases e <;> simp [performed, ih]

/-- C17: a pass of `runAllTasks` that returns (it does when `read` is set,
the fuel suffices, the strided counter does not wrap and no assertion fails)
makes its calls in this order: first the task loop, which only calls
`performTask`, `calculate` and `deactivate_task`; then `comm.Sum`, when the
pass is not serial and the buffer is not empty; then `finish(tolerance)` on
the vessels 0, 1, ..., `functions.size() - 1`, each once, in that order. So
every `finish` comes after the whole task loop and the sum, and no `calculate`
follows a `finish`. -/
theorem finish_after_task_loop [Zero R] (cb : Callbacks σ α R)
    (a : ActionWithVessel σ α R) (ntasks fuel : Nat) :
    (a.read = true → rankOf cb a < strideOf cb a → ntasks ≤ fuel →
      ntasks + strideOf cb a ≤ UNSIGNED_RANGE → assertionsHold cb →
      ∃ a1 tr, runAllTasks cb a ntasks fuel = Except.ok (a1, tr)) ∧
    (∀ a1 tr, runAllTasks cb a ntasks fuel = Except.ok (a1, tr) →
      ∃ loopTr, (∀ e ∈ loopTr, isLoopEvent e = true) ∧
        tr = loopTr
          ++ (if !a.serial && decide (0 < (loopBuffer cb a ntasks fuel).length)
              then [Event.Sum] else [])
          ++ (List.range a.functions.length).map (fun j => Event.finish j)) := by
  constructor
  · intro hread hr hfuel hrange hdbg
    obtain ⟨a1, tr, h, -⟩ := runAllTasks_performed cb a ntasks fuel hread hr hfuel hrange hdbg
    exact ⟨a1, tr, h⟩
  · intro a1 tr h
    obtain ⟨-, -, -, loopTr, h1, -, h2⟩ := runAllTasks_trace cb a ntasks fuel a1 tr h
    exact ⟨loopTr, h1, h2⟩

/-- C17, for rank 1 of two workers on three tasks with one sum vessel: the
calls are `performTask(1)`, `calculate` on vessel 0, `comm.Sum`, `finish` on
vessel 0. -/
theorem finish_after_task_loop_witness :
    ∃ a1 tr, runAllTasks (sumCallbacks 2 1 [6]) (sumAction false 0) 3 3 = Except.ok (a1, tr) ∧
      tr = [Event.performTask 1, Event.calculate 0 1, Event.Sum, Event.finish 0] ∧
      ∃ loopTr, (∀ e ∈ loopTr, isLoopEvent e = true) ∧
        tr = loopTr
          ++ (if !(sumAction false 0).serial &&
                decide (0 < (loopBuffer (sumCallbacks 2 1 [6]) (sumAction false 0) 3 3).length)
              then [Event.Sum] else [])
          ++ (List.range (sumAction false 0).functions.length).map (fun j => Event.finish j) := by
  obtain ⟨a1, tr, h⟩ := (finish_after_task_loop (sumCallbacks 2 1 [6]) (sumAction false 0)
    3 3).1 rfl (by decide) (by decide) (by decide) (Or.inr (fun _ => rfl))
  refine ⟨a1, tr, h, ?_,
    (finish_after_task_loop (sumCallbacks 2 1 [6]) (sumAction false 0) 3 3).2 a1 tr h⟩
  have h2 : runAllTasks (sumCallbacks 2 1 [6]) (sumAction false 0) 3 3 = Except.ok
      (_, [Event.performTask 1, Event.calculate 0 1, Event.Sum, Event.finish 0]) := rfl
  rw [h2] at h
  injection h with h
  injection h with _ h
  exact h.symm

/-- C18, as the claim states it, fails: one vessel that never reports a
contribution and two tasks, serial. The first pass calls `deactivate_task()`
for tasks 0 and 1 (the task source records both); the second pass, on the
state the first one left, calls `performTask(0)` and `calculate` for task 0
again. -/
theorem deactivated_task_performed_again :
    ∃ a1 tr1 a2 tr2,
      runAllTasks quietCallbacks quietAction 2 2 = Except.ok (a1, tr1) ∧
      Event.deactivate_task 0 ∈ tr1 ∧ a1.derived.2 = [0, 1] ∧
      runAllTasks quietCallbacks a1 2 2 = Except.ok (a2, tr2) ∧
      Event.performTask 0 ∈ tr2 ∧ Event.calculate 0 0 ∈ tr2 :=
  ⟨_, _, _, _, rfl, by decide, rfl, rfl, by decide, by decide⟩

/-- C18, amended: `runAllTasks` keeps no skip cache of its own. A pass reports
a task to the derived class through `deactivate_task()` and, in the next pass
of the same worker over the same `ntasks`, every such task is passed to
`performTask` again: the second pass performs the same task indices as the
first, those `j < ntasks` with `j mod stride = rank`. -/
theorem runAllTasks_repeats_deactivated [Zero R] (cb : Callbacks σ α R)
    (a : ActionWithVessel σ α R) (ntasks fuel : Nat) (hread : a.read = true)
    (hr : rankOf cb a < strideOf cb a) (hfuel : ntasks ≤ fuel)
    (hrange : ntasks + strideOf cb a ≤ UNSIGNED_RANGE) (hdbg : assertionsHold cb) :
    ∃ a1 tr1 a2 tr2,
      runAllTasks cb a ntasks fuel = Except.ok (a1, tr1) ∧
      runAllTasks cb a1 ntasks fuel = Except.ok (a2, tr2) ∧
      (∀ j, Event.deactivate_task j ∈ tr1 → Event.performTask j ∈ tr2) ∧
      performed tr2 = performed tr1 ∧
      performed tr2 =
        (List.range ntasks).filter (fun j => decide (j % strideOf cb a = rankOf cb a)) := by
  obtain ⟨a1, tr1, h1, p1⟩ := runAllTasks_performed cb a ntasks fuel hread hr hfuel hrange hdbg
  obtain ⟨f1, f2, -, loopTr, l1, l2, l3⟩ := runAllTasks_trace cb a ntasks fuel a1 tr1 h1
  have hs : strideOf cb a1 = strideOf cb a := by simp [strideOf, f2]
  have hk : rankOf cb a1 = rankOf cb a := by simp [rankOf, f2]
  obtain ⟨a2, tr2, h2, p2⟩ := runAllTasks_performed cb a1 ntasks fuel (by rw [f1, hread])
    (by rw [hs, hk]; exact hr) hfuel (by rw [hs]; exact hrange) hdbg
  rw [hs, hk] at p2
  refine ⟨a1, tr1, a2, tr2, h1, h2, ?_, by rw [p1, p2], p2⟩
  intro j hj
  rw [← mem_performed, p2, ← p1, mem_performed]
  rw [l3] at hj ⊢
  have hloop : Event.deactivate_task j ∈ loopTr := by
    rcases List.mem_append.mp hj with hj | hj
    · rcases List.mem_append.mp hj with hj | hj
      · exact hj
      · split at hj
        · simp at hj
        · simp at hj
    · simp at hj
  exact List.mem_append_left _ (List.mem_append_left _ (l2 j hloop))

/-- C18 amended, for the task source that records deactivations: both tasks
are deactivated in the first pass and performed again in the second. -/
theorem runAllTasks_repeats_deactivated_witness :
    (quietAction.read = true ∧ rankOf quietCallbacks quietAction
        < strideOf quietCallbacks quietAction ∧ 2 ≤ 2 ∧
      2 + strideOf quietCallbacks quietAction ≤ UNSIGNED_RANGE ∧
      assertionsHold quietCallbacks) ∧
    ∃ a1 tr1 a2 tr2,
      runAllTasks quietCallbacks quietAction 2 2 = Except.ok (a1, tr1) ∧
      runAllTasks quietCallbacks a1 2 2 = Except.ok (a2, tr2) ∧
      (∀ j, Event.deactivate_task j ∈ tr1 → Event.performTask j ∈ tr2) ∧
      performed tr2 = performed tr1 := by
  refine ⟨⟨rfl, by decide, by decide, by decide, Or.inr (fun _ => rfl)⟩, ?_⟩
  obtain ⟨a1, tr1, a2, tr2, h1, h2, h3, h4, -⟩ :=
    runAllTasks_repeats_deactivated quietCallbacks quietAction 2 2 rfl (by decide)
      (by decide) (by decide) (Or.inr (fun _ => rfl))
  exact ⟨a1, tr1, a2, tr2, h1, h2, h3, h4⟩

end ActionWithVessel
end vesselbase

theorem forLoopAux_some_inv {σ : Type} (body : Nat → σ → Option σ) (Inv : Nat → σ → Prop) :
    ∀ (n lo : Nat) (s s1 : σ), Inv lo s →
      (∀ j t t1, lo ≤ j → j < lo + n → Inv j t → body j t = some t1 → Inv (j + 1) t1) →
      forLoopAux body n lo s = some s1 → Inv (lo + n) s1 := by
  intro n
  induction n with
  | zero =>
    intro lo s s1 h _ hs
    simp only [forLoopAux, Option.some.injEq] at hs
    subst hs
    simpa using h
  | succ n ih =>
    intro lo s s1 h step hs
    simp only [forLoopAux] at hs
    obtain ⟨t, ht, hrest⟩ := Option.bind_eq_some.mp hs
    have hI := step lo s t (Nat.le_refl _) (by omega) h ht
    have := ih (lo + 1) t s1 hI (fun j u u1 h1 h2 hu hb => step j u u1 (by omega) (by omega) hu hb)
      hrest
    have e : lo + (n + 1) = lo + 1 + n := by omega
    rw [e]; exact this

theorem forLoop_some_inv {σ : Type} (body : Nat → σ → Option σ) (Inv : Nat → σ → Prop)
    (lo hi : Nat) (s s1 : σ) (hle : lo ≤ hi) (h0 : Inv lo s)
    (step : ∀ j t t1, lo ≤ j → j < hi → Inv j t → body j t = some t1 → Inv (j + 1) t1)
    (h : forLoop lo hi body s = some s1) : Inv hi s1 := by
  have := forLoopAux_some_inv body Inv (hi - lo) lo s s1 h0
    (fun j t t1 h1 h2 hj hb => step j t t1 h1 (by omega) hj hb) h
  have e : lo + (hi - lo) = hi := by omega
  rw [e] at this; exact this

theorem push_back_at_some (nb nb1 : List (List Nat)) (i a : Nat)
    (h : push_back_at nb i a = some nb1) :
    ∃ row, nb[i]? = some row ∧ nb1 = nb.set i (row ++ [a]) := by
  unfold push_back_at at h
  cases hrow : nb[i]? with
  | none => simp [hrow] at h
  | some row =>
    simp only [hrow, Option.some.injEq] at h
    exact ⟨row, rfl, h.symm⟩

namespace NeighborList
variable {V P R : Type}

/-- Rows of the neighbour table while `update` fills row `i`, having looked at
the candidates up to position `j` of the coordinate array. -/
theorem update_inner_bound [LinearOrder R] [Zero R] (g : Geometry V P R)
    (nl : NeighborList P R) (positions : List V) (i : Nat) (nb nb1 : List (List Nat))
    (hlen : nb.length = nl.list0_.length)
    (hrows : ∀ (k : Nat) (row : List Nat), nb[k]? = some row →
      row.length ≤ nl.list1_.length ∧ (i ≤ k → row = []))
    (h : forLoop nl.list0_.length (nl.list0_.length + nl.list1_.length) (fun j nb => do
      let pi ← positions[i]?
      let pj ← positions[j]?
      let value := pairValue g nl.pbc_ pi pj
      if 0 < value ∧ value ≤ nl.distance_ then do
        let a ← nl.list1_[j - nl.list0_.length]?
        push_back_at nb i a
      else pure nb) nb = some nb1) :
    nb1.length = nl.list0_.length ∧
    ∀ (k : Nat) (row : List Nat), nb1[k]? = some row →
      row.length ≤ nl.list1_.length ∧ (i + 1 ≤ k → row = []) := by
  have key := forLoop_some_inv _
    (fun j (t : List (List Nat)) => t.length = nl.list0_.length ∧
      ∀ (k : Nat) (row : List Nat), t[k]? = some row →
        (k ≠ i → row.length ≤ nl.list1_.length ∧ (i ≤ k → row = [])) ∧
        (k = i → row.length + nl.list0_.length ≤ j))
    nl.list0_.length (nl.list0_.length + nl.list1_.length) nb nb1 (by omega)
    ⟨hlen, fun k row hk => ⟨fun _ => hrows k row hk, fun hki => by
      have := (hrows k row hk).2 (by omega)
      subst this; simp⟩⟩
    (by
      intro j t t1 hj1 hj2 ⟨ht1, ht2⟩ hb
      simp only [Option.bind_eq_bind] at hb
      obtain ⟨pi, _, hb⟩ := Option.bind_eq_some.mp hb
      obtain ⟨pj, _, hb⟩ := Option.bind_eq_some.mp hb
      split at hb
      · obtain ⟨a, _, hb⟩ := Option.bind_eq_some.mp hb
        obtain ⟨row0, hrow0, hset⟩ := push_back_at_some _ _ _ _ hb
        subst hset
        refine ⟨by simp [ht1], ?_⟩
        intro k row hk
        rw [List.getElem?_set] at hk
        by_cases hik : i = k
        · subst hik
          have hlt : i < t.length := by
            by_contra hcon
            rw [List.getElem?_eq_none (by omega)] at hrow0
            cases hrow0
          simp only [if_true, hlt, Option.some.injEq] at hk
          subst hk
          refine ⟨fun hne => absurd rfl hne, fun _ => ?_⟩
          have := (ht2 i row0 hrow0).2 rfl
          simp only [List.length_append, List.length_singleton]
          omega
        · simp only [hik, if_false] at hk
          have := ht2 k row hk
          exact ⟨this.1, fun hki => absurd hki.symm hik⟩
      · simp only [Option.pure_def, Option.some.injEq] at hb
        subst hb
        refine ⟨ht1, ?_⟩
        intro k row hk
        have := ht2 k row hk
        exact ⟨this.1, fun hki => by have := this.2 hki; omega⟩)
    h
  refine ⟨key.1, ?_⟩
  intro k row hk
  by_cases hki : k = i
  · have := (key.2 k row hk).2 hki
    exact ⟨by omega, fun hle => by omega⟩
  · have := (key.2 k row hk).1 hki
    exact ⟨this.1, fun hle => this.2 (by omega)⟩

theorem update_bound [LinearOrder R] [Zero R] (g : Geometry V P R)
    (nl nl1 : NeighborList P R) (positions : List V) (request : List Nat)
    (h : update g nl positions = some (nl1, request)) :
    nl1.list0_ = nl.list0_ ∧ nl1.list1_ = nl.list1_ ∧
    nl1.neighbors_.length = nl.list0_.length ∧
    ∀ (k : Nat) (row : List Nat), nl1.neighbors_[k]? = some row →
      row.length ≤ nl.list1_.length := by
  unfold update at h
  simp only [Option.bind_eq_bind, Option.pure_def] at h
  obtain ⟨st, hst, h⟩ := Option.bind_eq_some.mp h
  have key := forLoop_some_inv _
    (fun i (t : List (List Nat) × List Nat) => t.1.length = nl.list0_.length ∧
      ∀ (k : Nat) (row : List Nat), t.1[k]? = some row →
        row.length ≤ nl.list1_.length ∧ (i ≤ k → row = []))
    0 nl.list0_.length _ st (Nat.zero_le _)
    ⟨by simp [vresize_nil], fun k row hk => by
      rw [vresize_nil, List.getElem?_replicate] at hk
      split at hk
      · injection hk with hk; subst hk; simp
      · cases hk⟩
    (by
      intro i t t1 _ hi ⟨ht1, ht2⟩ hb
      obtain ⟨nb1, hnb1, hb⟩ := Option.bind_eq_some.mp hb
      obtain ⟨row1, _, hb⟩ := Option.bind_eq_some.mp hb
      simp only [Option.some.injEq] at hb
      subst hb
      have := update_inner_bound g nl positions i t.1 nb1 ht1 ht2
        (by simpa only [Option.bind_eq_bind, Option.pure_def] using hnb1)
      exact this)
    hst
  obtain ⟨nbs, req⟩ := st
  simp only [Option.some.injEq, Prod.mk.injEq] at h
  obtain ⟨h1, h2⟩ := h
  subst h1
  exact ⟨rfl, rfl, key.1, fun k row hk => (key.2 k row hk).1⟩

/-- C20: the neighbour counts stay limited by `list1`. An object the
constructor returns has one neighbour set per owner
(`getNumberOfAtoms() = |list0|`), none with more than `|list1|` entries; every
`update` that returns, from whatever state and coordinates, keeps `list0` and
`list1` and leaves such an object again (and `update` does return for
coordinates of the required length); `getFullList` keeps the property. -/
theorem neighbor_counts_bounded [LinearOrder R] [Zero R] (g : Geometry V P R) :
    (∀ (list0 list1 : List Nat) (distance : R) (stride : Nat) (pbc : Option P)
        (nl : NeighborList P R),
      construct list0 list1 distance stride pbc = some nl →
      nl.list0_ = list0 ∧ nl.list1_ = list1 ∧ countsBounded nl) ∧
    (∀ (nl nl1 : NeighborList P R) (positions : List V) (request : List Nat),
      update g nl positions = some (nl1, request) →
      nl1.list0_ = nl.list0_ ∧ nl1.list1_ = nl.list1_ ∧ countsBounded nl1) ∧
    (∀ (nl : NeighborList P R) (positions : List V),
      positions.length = nl.list0_.length + nl.list1_.length →
      ∃ nl1 request, update g nl positions = some (nl1, request)) ∧
    (∀ nl : NeighborList P R, countsBounded nl → countsBounded (getFullList nl).1) := by
  refine ⟨?_, ?_, ?_, ?_⟩
  · intro list0 list1 distance stride pbc nl h
    cases list0 with
    | nil => simp [construct, max_element] at h
    | cons x xs =>
      cases list1 with
      | nil => simp [construct, max_element] at h
      | cons y ys =>
        rw [construct_cons] at h
        injection h with h
        subst h
        refine ⟨rfl, rfl, by simp [getNumberOfAtoms], ?_⟩
        intro i hi
        refine ⟨(y :: ys).length, ?_, Nat.le_refl _⟩
        simp only [getNumberOfNeighbors, List.getElem?_replicate, hi, if_true, Option.map_some']
  · intro nl nl1 positions request h
    obtain ⟨h1, h2, h3, h4⟩ := update_bound g nl nl1 positions request h
    refine ⟨h1, h2, by rw [getNumberOfAtoms, h3, h1], ?_⟩
    intro i hi
    rw [h1] at hi
    have hlt : i < nl1.neighbors_.length := by omega
    refine ⟨nl1.neighbors_[i].length, by simp [getNumberOfNeighbors,
      List.getElem?_eq_getElem hlt], ?_⟩
    rw [h2]
    exact h4 i _ (List.getElem?_eq_getElem hlt)
  · intro nl positions hlen
    exact ⟨_, _, update_eq g nl positions hlen⟩
  · intro nl h
    exact h

/-- C20, on a line: after the constructor both owners have 2 = `|list1|`
neighbours, after `update` owner 0 has 2 and owner 3 has none. -/
theorem neighbor_counts_bounded_witness :
    countsBounded lineList ∧
    ∃ nl1 request, update lineGeometry lineList linePositions = some (nl1, request) ∧
      countsBounded nl1 ∧ nl1.getNumberOfNeighbors 1 = some 0 := by
  have h := neighbor_counts_bounded (P := Unit) lineGeometry
  obtain ⟨nl1, request, hu⟩ := h.2.2.1 lineList linePositions (by decide)
  refine ⟨(h.1 [0, 3] [1, 2] 2 5 none lineList rfl).2.2, nl1, request, hu,
    (h.2.1 lineList nl1 linePositions request hu).2.2, ?_⟩
  rw [update_eq lineGeometry lineList linePositions (by decide)] at hu
  injection hu with hu
  injection hu with hu _
  rw [← hu]
  decide

end NeighborList

theorem vaddAt_length {R : Type} [Add R] (k : Nat) (x : R) (v : List R) :
    (vaddAt k x v).length = v.length := by
  unfold vaddAt
  cases v[k]? <;> simp

theorem vaddAt_getElem? {R : Type} [Add R] (k : Nat) (x : R) (v : List R) (e : Nat) :
    (vaddAt k x v)[e]? = (v[e]?).map (fun y => if e = k then y + x else y) := by
  unfold vaddAt
  cases hk : v[k]? with
  | none =>
    by_cases hek : e = k
    · subst hek; simp [hk]
    · simp [hek]
  | some y0 =>
    simp only [List.getElem?_set]
    by_cases hek : e = k
    · subst hek
      have hlt : e < v.length := by
        by_contra hcon
        rw [List.getElem?_eq_none (by omega)] at hk
        cases hk
      simp [hlt, hk]
    · have : ¬ k = e := fun h => hek h.symm
      cases v[e]? <;> simp [this, hek]

theorem scaledLoop_length {R : Type} [Add R] [Mul R] (off : Nat) (df : R) :
    ∀ (ders : List R) (k : Nat) (t : List R), (scaledLoop off df ders k t).length = t.length := by
  intro ders
  induction ders with
  | nil => intro k t; rfl
  | cons d rest ih => intro k t; simp [scaledLoop, ih, vaddAt_length]

theorem scaledAt_nil {R : Type} [Zero R] [Mul R] (df : R) (off e : Nat) :
    scaledAt df [] off e = 0 := by
  simp [scaledAt]

theorem scaledLoop_getElem? {R : Type} [Semiring R] (off : Nat) (df : R) :
    ∀ (ders : List R) (k : Nat) (t : List R) (e : Nat),
      (scaledLoop off df ders k t)[e]? =
        (t[e]?).map (fun y => y + scaledAt df ders (off + k) e) := by
  intro ders
  induction ders with
  | nil => intro k t e; simp [scaledLoop, scaledAt_nil]
  | cons d rest ih =>
    intro k t e
    simp only [scaledLoop]
    rw [ih, vaddAt_getElem?, Option.map_map]
    congr 1
    funext y
    simp only [Function.comp]
    have e1 : off + (k + 1) = off + k + 1 := by omega
    rw [e1]
    rcases Nat.lt_trichotomy e (off + k) with h | h | h
    · have h1 : ¬ off + k ≤ e := by omega
      have h2 : ¬ off + k + 1 ≤ e := by omega
      have h3 : ¬ e = off + k := by omega
      simp [scaledAt, h1, h2, h3]
    · subst h
      simp [scaledAt]
    · have h1 : off + k ≤ e := by omega
      have h2 : off + k + 1 ≤ e := by omega
      have h3 : ¬ e = off + k := by omega
      have h4 : e - (off + k) = (e - (off + k + 1)) + 1 := by omega
      simp only [scaledAt, h1, h2, h3, if_true, if_false]
      rw [h4, List.getElem?_cons_succ]

theorem scaledTasks_getElem? {R : Type} [Semiring R] (off : Nat) :
    ∀ (tasks : List (R × List R)) (t : List R) (e : Nat),
      (tasks.foldl (fun acc p => scaledLoop off p.1 p.2 0 acc) t)[e]? =
        (t[e]?).map (fun y => y + (tasks.map (fun p => scaledAt p.1 p.2 off e)).sum) := by
  intro tasks
  induction tasks with
  | nil => intro t e; simp
  | cons p rest ih =>
    intro t e
    simp only [List.foldl_cons, List.map_cons, List.sum_cons]
    rw [ih, scaledLoop_getElem?, Option.map_map]
    congr 1
    funext y
    simp [Function.comp, add_assoc]

theorem scaledTasks_length {R : Type} [Semiring R] (off : Nat) :
    ∀ (tasks : List (R × List R)) (t : List R),
      (tasks.foldl (fun acc p => scaledLoop off p.1 p.2 0 acc) t).length = t.length := by
  intro tasks
  induction tasks with
  | nil => intro t; rfl
  | cons p rest ih => intro t; simp [ih, scaledLoop_length]

theorem scaledAt_inside {R : Type} [Semiring R] (df : R) (ders : List R) (off i : Nat)
    (hi : i < ders.length) : scaledAt df ders off (off + i) = df * ders.getD i 0 := by
  have h : ders[i]? = some ders[i] := List.getElem?_eq_getElem hi
  simp [scaledAt, h, List.getD_eq_getElem?_getD]

theorem scaledAt_outside {R : Type} [Semiring R] (df : R) (ders : List R) (off e : Nat)
    (he : e < off ∨ off + ders.length ≤ e) : scaledAt df ders off e = 0 := by
  unfold scaledAt
  split
  · have : ders[e - off]? = none := List.getElem?_eq_none (by omega)
    rw [this]
  · rfl

theorem sum_scaledAt_inside {R : Type} [Semiring R] (tasks : List (R × List R))
    (D off i : Nat) (hD : ∀ t ∈ tasks, t.2.length = D) (hi : i < D) :
    (tasks.map (fun p => scaledAt p.1 p.2 off (off + i))).sum =
      (tasks.map (fun p => p.1 * p.2.getD i 0)).sum := by
  congr 1
  apply List.map_congr_left
  intro p hp
  exact scaledAt_inside p.1 p.2 off i (by rw [hD p hp]; exact hi)

theorem sum_scaledAt_outside {R : Type} [Semiring R] (tasks : List (R × List R))
    (D off e : Nat) (hD : ∀ t ∈ tasks, t.2.length = D) (he : e < off ∨ off + D ≤ e) :
    (tasks.map (fun p => scaledAt p.1 p.2 off e)).sum = 0 := by
  have : tasks.map (fun p => scaledAt p.1 p.2 off e) = tasks.map (fun _ => (0 : R)) := by
    apply List.map_congr_left
    intro p hp
    exact scaledAt_outside p.1 p.2 off e (by rw [hD p hp]; exact he)
  rw [this]
  simp

namespace vesselbase
namespace ActionWithVessel
variable {σ α R : Type}

theorem chainLoop_eq_scaledLoop [Semiring R] (valout : Vessel α) (vstart : Nat) (df : R) :
    ∀ (ders : List R) (k : Nat) (b : List R),
      chainLoop valout vstart df ders k b
        = scaledLoop (valout.bufstart + vstart) df ders k b := by
  intro ders
  induction ders with
  | nil => intro k b; rfl
  | cons d rest ih =>
    intro k b
    simp only [chainLoop, scaledLoop, Vessel.addToBufferElement, ih, Nat.add_assoc]

theorem transferLoop_eq_scaledLoop [Semiring R] (df : R) :
    ∀ (ders : List R) (k : Nat) (out : Value R),
      transferLoop df ders k out = ⟨scaledLoop 0 df ders k out.derivatives⟩ := by
  intro ders
  induction ders with
  | nil => intro k out; rfl
  | cons d rest ih =>
    intro k out
    simp only [transferLoop, scaledLoop, Value.addDerivative, ih, Nat.zero_add]

theorem assertion_passes (cb : Callbacks σ α R) (a : ActionWithVessel σ α R) (j : Nat)
    (h : a.derivatives.length = getNumberOfDerivatives cb a j) :
    (cb.debug && !decide (a.derivatives.length = getNumberOfDerivatives cb a j)) = false := by
  simp [h]

theorem transferTasks_eq [Semiring R] (cb : Callbacks σ α R) (a : ActionWithVessel σ α R)
    (j : Nat) :
    ∀ (tasks : List (R × List R)) (out : Value R),
      (∀ t ∈ tasks, t.2.length = getNumberOfDerivatives cb { a with derivatives := t.2 } j) →
      transferTasks cb a j tasks out = Except.ok
        ⟨tasks.foldl (fun acc p => scaledLoop 0 p.1 p.2 0 acc) out.derivatives⟩ := by
  intro tasks
  induction tasks with
  | nil => intro out _; rfl
  | cons t rest ih =>
    intro out h
    have ht := h t (List.mem_cons_self _ _)
    simp only [transferTasks, transferDerivatives,
      assertion_passes cb { a with derivatives := t.2 } j ht, Bool.false_eq_true, if_false]
    rw [ih _ (fun u hu => h u (List.mem_cons_of_mem _ hu)), transferLoop_eq_scaledLoop]
    rfl

theorem chainTasks_eq [Semiring R] (cb : Callbacks σ α R) (a : ActionWithVessel σ α R)
    (j vstart : Nat) (valout : Vessel α) :
    ∀ (tasks : List (R × List R)) (b : List R),
      (∀ t ∈ tasks, t.2.length = getNumberOfDerivatives cb { a with derivatives := t.2 } j) →
      chainTasks cb a j vstart valout tasks b = Except.ok
        (tasks.foldl (fun acc p => scaledLoop (valout.bufstart + vstart) p.1 p.2 0 acc) b) := by
  intro tasks
  induction tasks with
  | nil => intro b _; rfl
  | cons t rest ih =>
    intro b h
    have ht := h t (List.mem_cons_self _ _)
    have ht2 : ({ a with derivatives := t.2, buffer := b } :
        ActionWithVessel σ α R).derivatives.length =
        getNumberOfDerivatives cb { a with derivatives := t.2, buffer := b } j := ht
    simp only [chainTasks, chainRuleForElementDerivatives,
      assertion_passes cb { a with derivatives := t.2, buffer := b } j ht2,
      Bool.false_eq_true, if_false]
    rw [ih _ (fun u hu => h u (List.mem_cons_of_mem _ hu)), chainLoop_eq_scaledLoop]
    rfl

theorem scaledTasks_perm [Semiring R] (off : Nat) (tasks tasks1 : List (R × List R))
    (t : List R) (h : tasks.Perm tasks1) :
    tasks.foldl (fun acc p => scaledLoop off p.1 p.2 0 acc) t =
      tasks1.foldl (fun acc p => scaledLoop off p.1 p.2 0 acc) t := by
  apply List.ext_getElem?
  intro e
  rw [scaledTasks_getElem?, scaledTasks_getElem?,
    (h.map (fun p => scaledAt p.1 p.2 off e)).sum_eq]

/-- C16: with a derivative vector `der` of length `D` (the number of
derivatives asserted by the source), `chainRuleForElementDerivatives` adds
`df * der[i]` to element `vstart + i` of the vessel's slice (element
`bufstart + vstart + i` of the buffer) for each `i < D`, leaves every other
buffer element and everything else in the object, `der` included, as it
was; `transferDerivatives` adds `df * der[i]` to derivative `i` of the output
value and leaves the others. Called once per task of a list, with
sensitivities `df_t` and vectors `der_t` of length `D`, the transfer leaves a
zero output of length `D` equal to the sums over the tasks of
`df_t * der_t[i]`, the vessel's slice increased by these sums, and the result
is the same for any order of the calls. -/
theorem chain_rule_accumulates [Semiring R] (cb : Callbacks σ α R)
    (a : ActionWithVessel σ α R) (j vstart : Nat) (df : R) (valout : Vessel α)
    (out : Value R) (D : Nat) (tasks : List (R × List R))
    (hder : a.derivatives.length = getNumberOfDerivatives cb a j)
    (htasks : ∀ t ∈ tasks, t.2.length = D ∧
      getNumberOfDerivatives cb { a with derivatives := t.2 } j = D) :
    (∃ a1, chainRuleForElementDerivatives cb a j vstart df valout = Except.ok a1 ∧
      a1 = { a with buffer := a1.buffer } ∧ a1.buffer.length = a.buffer.length ∧
      (∀ (i : Nat) (d y : R), a.derivatives[i]? = some d →
        a.buffer[valout.bufstart + vstart + i]? = some y →
        a1.buffer[valout.bufstart + vstart + i]? = some (y + df * d)) ∧
      (∀ e : Nat, (e < valout.bufstart + vstart ∨
          valout.bufstart + vstart + a.derivatives.length ≤ e) →
        a1.buffer[e]? = a.buffer[e]?)) ∧
    (∃ out1, transferDerivatives cb a j df out = Except.ok out1 ∧
      out1.derivatives.length = out.derivatives.length ∧
      (∀ (i : Nat) (d y : R), a.derivatives[i]? = some d → out.derivatives[i]? = some y →
        out1.derivatives[i]? = some (y + df * d)) ∧
      (∀ e : Nat, a.derivatives.length ≤ e → out1.derivatives[e]? = out.derivatives[e]?)) ∧
    (∃ res, transferTasks cb a j tasks ⟨List.replicate D 0⟩ = Except.ok res ∧
      res.derivatives =
        (List.range D).map (fun i => (tasks.map (fun t => t.1 * t.2.getD i 0)).sum) ∧
      ∀ tasks1, tasks.Perm tasks1 →
        transferTasks cb a j tasks1 ⟨List.replicate D 0⟩ = Except.ok res) ∧
    (∀ b : List R, ∃ res, chainTasks cb a j vstart valout tasks b = Except.ok res ∧
      res.length = b.length ∧
      (∀ (i : Nat) (y : R), i < D → b[valout.bufstart + vstart + i]? = some y →
        res[valout.bufstart + vstart + i]? =
          some (y + (tasks.map (fun t => t.1 * t.2.getD i 0)).sum)) ∧
      (∀ e : Nat, (e < valout.bufstart + vstart ∨ valout.bufstart + vstart + D ≤ e) →
        res[e]? = b[e]?) ∧
      ∀ tasks1, tasks.Perm tasks1 →
        chainTasks cb a j vstart valout tasks1 b = Except.ok res) := by
  have hlen : ∀ t ∈ tasks, t.2.length = D := fun t ht => (htasks t ht).1
  have hassert : ∀ t ∈ tasks,
      t.2.length = getNumberOfDerivatives cb { a with derivatives := t.2 } j :=
    fun t ht => by rw [(htasks t ht).1, (htasks t ht).2]
  refine ⟨?_, ?_, ?_, ?_⟩
  · refine ⟨{ a with buffer := chainLoop valout vstart df a.derivatives 0 a.buffer }, ?_, rfl,
      ?_, ?_, ?_⟩
    · simp only [chainRuleForElementDerivatives, assertion_passes cb a j hder,
        Bool.false_eq_true, if_false]
    · simp only [chainLoop_eq_scaledLoop, scaledLoop_length]
    · intro i d y hd hy
      simp only [chainLoop_eq_scaledLoop, scaledLoop_getElem?, hy, Option.map_some',
        Nat.add_zero]
      have hi : i < a.derivatives.length := by
        by_contra hcon
        rw [List.getElem?_eq_none (by omega)] at hd
        cases hd
      rw [scaledAt_inside df a.derivatives _ i hi, List.getD_eq_getElem?_getD, hd]
      rfl
    · intro e he
      simp only [chainLoop_eq_scaledLoop, scaledLoop_getElem?, Nat.add_zero]
      rw [scaledAt_outside df a.derivatives _ e he]
      cases a.buffer[e]? <;> simp
  · refine ⟨transferLoop df a.derivatives 0 out, ?_, ?_, ?_, ?_⟩
    · simp only [transferDerivatives, assertion_passes cb a j hder,
        Bool.false_eq_true, if_false]
    · simp only [transferLoop_eq_scaledLoop, scaledLoop_length]
    · intro i d y hd hy
      simp only [transferLoop_eq_scaledLoop, scaledLoop_getElem?, hy, Option.map_some',
        Nat.add_zero]
      have hi : i < a.derivatives.length := by
        by_contra hcon
        rw [List.getElem?_eq_none (by omega)] at hd
        cases hd
      have hs := scaledAt_inside df a.derivatives 0 i hi
      rw [Nat.zero_add] at hs
      rw [hs, List.getD_eq_getElem?_getD, hd]
      rfl
    · intro e he
      simp only [transferLoop_eq_scaledLoop, scaledLoop_getElem?, Nat.add_zero]
      rw [scaledAt_outside df a.derivatives 0 e (Or.inr (by omega))]
      cases out.derivatives[e]? <;> simp
  · refine ⟨_, transferTasks_eq cb a j tasks _ hassert, ?_, ?_⟩
    · apply List.ext_getElem?
      intro e
      simp only [scaledTasks_getElem?, List.getElem?_replicate, List.getElem?_map,
        List.getElem?_range]
      by_cases he : e < D
      · have hs := sum_scaledAt_inside tasks D 0 e hlen he
        simp only [Nat.zero_add] at hs
        simp [he, hs, List.getElem?_range]
      · have : (List.range D)[e]? = none := List.getElem?_eq_none (by simp; omega)
        simp [he, this]
    · intro tasks1 hp
      rw [transferTasks_eq cb a j tasks1 _ (fun t ht => hassert t (hp.mem_iff.mpr ht)),
        scaledTasks_perm 0 tasks tasks1 _ hp]
  · intro b
    refine ⟨_, chainTasks_eq cb a j vstart valout tasks b hassert, scaledTasks_length _ _ _,
      ?_, ?_, ?_⟩
    · intro i y hi hy
      rw [scaledTasks_getElem?, hy, sum_scaledAt_inside tasks D _ i hlen hi]
      rfl
    · intro e he
      rw [scaledTasks_getElem?, sum_scaledAt_outside tasks D _ e hlen he]
      cases b[e]? <;> simp
    · intro tasks1 hp
      rw [chainTasks_eq cb a j vstart valout tasks1 b
        (fun t ht => hassert t (hp.mem_iff.mpr ht)), scaledTasks_perm _ tasks tasks1 _ hp]

/-- C16, for derivatives 1 and 2, a vessel whose slice starts at 2, offset 1
and two tasks of sensitivities 2 and 3: one call with sensitivity 2 adds 2 and
4 to the buffer elements 3 and 4; the two tasks leave the output derivatives
`2*1 + 3*10 = 32` and `2*2 + 3*20 = 64`. -/
theorem chain_rule_accumulates_witness :
    (chainAction.derivatives.length = getNumberOfDerivatives (plainCallbacks 1 0) chainAction 0 ∧
      ∀ t ∈ [((2 : Int), [(1 : Int), 2]), (3, [10, 20])], t.2.length = 2 ∧
        getNumberOfDerivatives (plainCallbacks 1 0) { chainAction with derivatives := t.2 } 0
          = 2) ∧
    (∃ a1, chainRuleForElementDerivatives (plainCallbacks 1 0) chainAction 0 1 2 ⟨2, 3, 0⟩
        = Except.ok a1 ∧ a1.buffer = [0, 0, 0, 2, 4, 0]) ∧
    (∃ res, transferTasks (plainCallbacks 1 0) chainAction 0 [(2, [1, 2]), (3, [10, 20])]
        ⟨List.replicate 2 0⟩ = Except.ok res ∧ res.derivatives = [32, 64]) := by
  have hder : chainAction.derivatives.length
      = getNumberOfDerivatives (plainCallbacks 1 0) chainAction 0 := rfl
  have htasks : ∀ t ∈ [((2 : Int), [(1 : Int), 2]), (3, [10, 20])], t.2.length = 2 ∧
      getNumberOfDerivatives (plainCallbacks 1 0) { chainAction with derivatives := t.2 } 0
        = 2 := by
    intro t ht
    simp only [List.mem_cons, List.mem_singleton, List.not_mem_nil, or_false] at ht
    rcases ht with rfl | rfl <;> exact ⟨rfl, rfl⟩
  obtain ⟨-, -, ⟨res, h1, h2, -⟩, -⟩ := chain_rule_accumulates (plainCallbacks 1 0) chainAction
    0 1 2 ⟨2, 3, 0⟩ ⟨[]⟩ 2 [(2, [1, 2]), (3, [10, 20])] hder htasks
  refine ⟨⟨hder, htasks⟩, ⟨_, rfl, by decide⟩, res, h1, ?_⟩
  rw [h2]
  decide

theorem addAmounts_getElem? [AddCommMonoid R] (v : Vessel α) :
    ∀ (am : List (Nat × R)) (b : List R) (e : Nat),
      (addAmounts v am b)[e]? = (b[e]?).map (fun y => y + amountAt v am e) := by
  intro am
  induction am with
  | nil => intro b e; simp [addAmounts, amountAt]
  | cons p rest ih =>
    intro b e
    simp only [addAmounts, Vessel.addToBufferElement]
    rw [ih, vaddAt_getElem?, Option.map_map]
    congr 1
    funext y
    simp only [Function.comp, amountAt, List.map_cons, List.sum_cons]
    by_cases h : e = v.bufstart + p.1
    · subst h; simp [add_assoc]
    · have h2 : ¬ v.bufstart + p.1 = e := fun h3 => h h3.symm
      simp [h, h2]

theorem addAmounts_length [AddCommMonoid R] (v : Vessel α) :
    ∀ (am : List (Nat × R)) (b : List R), (addAmounts v am b).length = b.length := by
  intro am
  induction am with
  | nil => intro b; rfl
  | cons p rest ih => intro b; simp [addAmounts, Vessel.addToBufferElement, ih, vaddAt_length]

theorem sum_single_residue [AddCommMonoid R] (x : R) (m : Nat) :
    ∀ k : Nat, ((List.range k).map (fun r => if m = r then x else 0)).sum
      = if m < k then x else 0 := by
  intro k
  induction k with
  | zero => simp
  | succ k ih =>
    rw [List.range_succ, List.map_append, List.sum_append, ih]
    by_cases h1 : m < k
    · have h2 : m ≠ k := by omega
      have h3 : m < k + 1 := by omega
      simp [h1, h2, h3]
    · by_cases h2 : m = k
      · subst h2; simp
      · have h3 : ¬ m < k + 1 := by omega
        simp [h1, h2, h3]

theorem sum_by_residue [AddCommMonoid R] (k : Nat) (hk : 1 ≤ k) (f : Nat → R) :
    ∀ l : List Nat,
      ((List.range k).map (fun r =>
        ((l.filter (fun j => decide (j % k = r))).map f).sum)).sum = (l.map f).sum := by
  intro l
  induction l with
  | nil => simp
  | cons x xs ih =>
    have hstep : ∀ r, (((x :: xs).filter (fun j => decide (j % k = r))).map f).sum
        = (if x % k = r then f x else 0)
          + ((xs.filter (fun j => decide (j % k = r))).map f).sum := by
      intro r
      by_cases h : x % k = r
      · simp [List.filter_cons, h]
      · simp [List.filter_cons, h]
    simp only [hstep]
    rw [List.sum_map_add, ih, sum_single_residue (f x) (x % k) k]
    simp [Nat.mod_lt x (by omega : k > 0)]

theorem set_self_vessel (fs : List (Vessel α)) (j : Nat) (v : Vessel α)
    (h : fs[j]? = some v) : fs.set j { v with self := v.self } = fs := by
  apply List.ext_getElem?
  intro e
  rw [List.getElem?_set]
  by_cases hje : j = e
  · subst hje
    have hlt : j < fs.length := by
      by_contra hcon
      rw [List.getElem?_eq_none (by omega)] at h
      cases h
    simp [hlt, h]
  · simp [hje]

theorem calculateLoop_sumLike [AddCommMonoid R] (cb : Callbacks σ α R)
    (amounts : Vessel α → Nat → List (Nat × R)) (skip : Nat → Bool)
    (hsum : SumLike cb amounts skip) (i : Nat) (t : TaskSide σ R) :
    ∀ (n j : Nat) (a : ActionWithVessel σ α R) (keep : Bool) (tr : List Event),
      a.taskSide = (cb.performTask i t).2 →
      (calculateLoop cb i n j (a, keep, tr)).1.functions = a.functions ∧
      (calculateLoop cb i n j (a, keep, tr)).1.serial = a.serial ∧
      ∀ e : Nat, (calculateLoop cb i n j (a, keep, tr)).1.buffer[e]? =
        (a.buffer[e]?).map (fun y => y +
          (((a.functions.drop j).take n).map (fun v => amountAt v (amounts v i) e)).sum) := by
  intro n
  induction n with
  | zero =>
    intro j a keep tr _
    refine ⟨rfl, rfl, fun e => ?_⟩
    simp [calculateLoop]
  | succ n ih =>
    intro j a keep tr hts
    simp only [calculateLoop]
    cases hget : a.functions[j]? with
    | none =>
      have hdrop : a.functions.drop j = [] := by
        apply List.drop_eq_nil_of_le
        by_contra hcon
        rw [List.getElem?_eq_getElem (by omega)] at hget
        cases hget
      refine ⟨rfl, rfl, fun e => ?_⟩
      simp [hdrop]
    | some v =>
      have hlt : j < a.functions.length := by
        by_contra hcon
        rw [List.getElem?_eq_none (by omega)] at hget
        cases hget
      have hv : a.functions[j] = v := by
        rw [List.getElem?_eq_getElem hlt] at hget
        injection hget
      have hdrop : a.functions.drop j = v :: a.functions.drop (j + 1) := by
        rw [← hv]; exact List.drop_eq_getElem_cons hlt
      have hc := hsum.2 v i a.tolerance t a.buffer
      rw [← hts] at hc
      simp only
      rw [hc.1, hc.2, set_self_vessel a.functions j v hget]
      obtain ⟨h1, h2, h3⟩ := ih (j + 1)
        { a with functions := a.functions, buffer := addAmounts v (amounts v i) a.buffer }
        (if (cb.calculate v i a.tolerance a.taskSide a.buffer).1 then true else keep)
        (tr ++ [Event.calculate j i]) hts
      refine ⟨h1, h2, fun e => ?_⟩
      rw [h3 e, hdrop]
      simp only [addAmounts_getElem?, Option.map_map, List.take_succ_cons, List.map_cons,
        List.sum_cons]
      congr 1
      funext y
      simp [Function.comp, add_assoc]

theorem taskLoop_sumLike [AddCommMonoid R] (cb : Callbacks σ α R)
    (amounts : Vessel α → Nat → List (Nat × R)) (skip : Nat → Bool)
    (hsum : SumLike cb amounts skip) (stride ntasks : Nat)
    (hs : 1 ≤ stride) (hrange : ntasks + stride ≤ UNSIGNED_RANGE)
    (hdbg : assertionsHold cb) :
    ∀ (fuel i : Nat) (a : ActionWithVessel σ α R) (tr : List Event), ntasks ≤ i + fuel →
      ∃ a1 tr1, taskLoop cb stride ntasks fuel i (a, tr) = Except.ok (a1, tr1) ∧
        a1.functions = a.functions ∧ a1.serial = a.serial ∧
        ∀ e : Nat, a1.buffer[e]? = (a.buffer[e]?).map (fun y => y +
          ((stridedFrom stride ntasks fuel i).map
            (fun q => taskAmount a.functions amounts skip q e)).sum) := by
  intro fuel
  induction fuel with
  | zero =>
    intro i a tr h
    have : ¬ i < ntasks := by omega
    refine ⟨a, tr, by simp [taskLoop, this], rfl, rfl, fun e => ?_⟩
    simp [stridedFrom]
  | succ fuel ih =>
    intro i a tr h
    by_cases hi : i < ntasks
    · have hmod : (i + stride) % UNSIGNED_RANGE = i + stride := Nat.mod_eq_of_lt (by omega)
      have hnext : ntasks ≤ i + stride + fuel := by omega
      have hassert : ∀ d, (cb.debug && !cb.isPossibleToSkip d) = false := by
        intro d
        rcases hdbg with h1 | h1
        · simp [h1]
        · simp [h1 d]
      have hskip := hsum.1 i a.taskSide
      simp only [taskLoop, if_pos hi, stridedFrom, hmod, hskip, List.map_cons, List.sum_cons]
      cases hsk : skip i with
      | true =>
        simp only [if_true, hassert, Bool.false_eq_true, if_false]
        obtain ⟨a1, tr1, h1, h2, h3, h4⟩ := ih (i + stride)
          { a with derived := cb.deactivate_task (cb.performTask i a.taskSide).2.derived,
                   thisval := (cb.performTask i a.taskSide).2.thisval,
                   derivatives := (cb.performTask i a.taskSide).2.derivatives }
          (tr ++ [Event.performTask i] ++ [Event.deactivate_task i]) hnext
        refine ⟨a1, tr1, h1, h2, h3, fun e => ?_⟩
        rw [h4 e]
        simp [taskAmount, hsk]
      | false =>
        simp only [Bool.false_eq_true, if_false]
        obtain ⟨c1, c2, c3⟩ := calculateLoop_sumLike cb amounts skip hsum i a.taskSide
          a.functions.length 0
          { a with derived := (cb.performTask i a.taskSide).2.derived,
                   thisval := (cb.performTask i a.taskSide).2.thisval,
                   derivatives := (cb.performTask i a.taskSide).2.derivatives }
          false (tr ++ [Event.performTask i]) rfl
        simp only [List.drop_zero, List.take_length] at c3
        have hamount : ∀ e, taskAmount a.functions amounts skip i e
            = (a.functions.map (fun v => amountAt v (amounts v i) e)).sum := by
          intro e; simp [taskAmount, hsk]
        split
        · obtain ⟨a1, tr1, h1, h2, h3, h4⟩ := ih (i + stride) _ _ hnext
          refine ⟨a1, tr1, h1, by rw [h2]; exact c1, by rw [h3]; exact c2, fun e => ?_⟩
          rw [h4 e]
          simp only [c1]
          rw [c3 e, Option.map_map, hamount e]
          congr 1
          funext y
          simp [Function.comp, add_assoc]
        · obtain ⟨a1, tr1, h1, h2, h3, h4⟩ := ih (i + stride) _ _ hnext
          refine ⟨a1, tr1, h1, by rw [h2]; exact c1, by rw [h3]; exact c2, fun e => ?_⟩
          rw [h4 e]
          simp only [c1]
          rw [c3 e, Option.map_map, hamount e]
          congr 1
          funext y
          simp [Function.comp, add_assoc]
    · refine ⟨a, tr, by simp [taskLoop, hi], rfl, rfl, fun e => ?_⟩
      simp [stridedFrom, hi]

theorem loopBuffer_sumLike [AddCommMonoid R] (cb : Callbacks σ α R)
    (a : ActionWithVessel σ α R) (amounts : Vessel α → Nat → List (Nat × R))
    (skip : Nat → Bool) (ntasks fuel len : Nat) (hsum : SumLike cb amounts skip)
    (hr : rankOf cb a < strideOf cb a) (hfuel : ntasks ≤ fuel)
    (hrange : ntasks + strideOf cb a ≤ UNSIGNED_RANGE) (hdbg : assertionsHold cb)
    (hbuf : a.buffer = List.replicate len 0) :
    ∃ a1 tr1, taskLoop cb (strideOf cb a) ntasks fuel (rankOf cb a) (a, [])
        = Except.ok (a1, tr1) ∧
      a1.functions = a.functions ∧ a1.serial = a.serial ∧
      a1.buffer = (List.range len).map (fun e =>
        (((List.range ntasks).filter (fun j => decide (j % strideOf cb a = rankOf cb a))).map
          (fun q => taskAmount a.functions amounts skip q e)).sum) := by
  obtain ⟨a1, tr1, h1, h2, h3, h4⟩ := taskLoop_sumLike cb amounts skip hsum (strideOf cb a)
    ntasks (by omega) hrange hdbg fuel (rankOf cb a) a [] (by omega)
  refine ⟨a1, tr1, h1, h2, h3, ?_⟩
  apply List.ext_getElem?
  intro e
  rw [h4 e, hbuf, stridedFrom_eq_filter _ _ _ _ hr hfuel, List.getElem?_replicate,
    List.getElem?_map]
  by_cases he : e < len
  · rw [List.getElem?_range he]
    simp [he]
  · have : (List.range len)[e]? = none := List.getElem?_eq_none (by simp; omega)
    simp [he, this]

theorem runAllTasks_buffer [Zero R] (cb : Callbacks σ α R) (a : ActionWithVessel σ α R)
    (ntasks fuel : Nat) (a1 : ActionWithVessel σ α R) (tr1 : List Event)
    (hread : a.read = true)
    (hloop : taskLoop cb (strideOf cb a) ntasks fuel (rankOf cb a) (a, [])
      = Except.ok (a1, tr1)) :
    ∃ w tr, runAllTasks cb a ntasks fuel = Except.ok (w, tr) ∧
      w.buffer = if !a1.serial && decide (0 < a1.buffer.length) then cb.Sum a1.buffer
        else a1.buffer := by
  unfold runAllTasks
  simp only [hread, Bool.not_true, Bool.false_eq_true, if_false, hloop]
  refine ⟨_, _, rfl, ?_⟩
  by_cases hs : (!a1.serial && decide (0 < a1.buffer.length)) = true
  · simp only [hs, if_true]
    exact (finishLoop_spec cb _ 0 _ _ (by simp)).2.1
  · simp only [hs, Bool.false_eq_true, if_false]
    exact (finishLoop_spec cb _ 0 _ _ (by simp)).2.1

/-- Parallel and serial passes from cleared buffers: `k ≥ 1` workers and a
serial run over the same `ntasks` tasks, on the same sum-like vessels, every
pass starting from an all-zero buffer of the same length, with `comm.Sum`
returning the element-wise sum of the workers' buffers. Then the element-wise sum of the buffers the `k` workers
hold when their task loops end is the buffer of the serial pass, and every
pass, serial or not, ends with that same buffer, the one its `finish` calls
have seen. -/
theorem parallel_buffers_sum_to_serial [AddCommMonoid R] (k ntasks fuel len : Nat)
    (fs : List (Vessel α)) (amounts : Vessel α → Nat → List (Nat × R)) (skip : Nat → Bool)
    (cbs : Nat → Callbacks σ α R) (acts : Nat → ActionWithVessel σ α R)
    (cb0 : Callbacks σ α R) (a0 : ActionWithVessel σ α R)
    (hk : 1 ≤ k) (hfuel : ntasks ≤ fuel) (hrange : ntasks + k ≤ UNSIGNED_RANGE)
    (hserial : a0.read = true ∧ a0.serial = true ∧ assertionsHold cb0 ∧
      SumLike cb0 amounts skip ∧ a0.functions = fs ∧ a0.buffer = List.replicate len 0)
    (hworker : ∀ r, r < k → (acts r).read = true ∧ (acts r).serial = false ∧
      (cbs r).Get_size = k ∧ (cbs r).Get_rank = r ∧ assertionsHold (cbs r) ∧
      SumLike (cbs r) amounts skip ∧ (acts r).functions = fs ∧
      (acts r).buffer = List.replicate len 0)
    (hSum : ∀ r, r < k → (cbs r).Sum (loopBuffer (cbs r) (acts r) ntasks fuel) =
      sumBuffers len ((List.range k).map (fun q => loopBuffer (cbs q) (acts q) ntasks fuel))) :
    ∃ s trs, runAllTasks cb0 a0 ntasks fuel = Except.ok (s, trs) ∧
      sumBuffers len ((List.range k).map (fun q => loopBuffer (cbs q) (acts q) ntasks fuel))
        = s.buffer ∧
      loopBuffer cb0 a0 ntasks fuel = s.buffer ∧
      ∀ r, r < k → ∃ w trw, runAllTasks (cbs r) (acts r) ntasks fuel = Except.ok (w, trw) ∧
        w.buffer = s.buffer := by
  obtain ⟨s1, s2, s3, s4, s5, s6⟩ := hserial
  have hs0 : strideOf cb0 a0 = 1 := by simp [strideOf, s2]
  have hr0 : rankOf cb0 a0 = 0 := by simp [rankOf, s2]
  -- the serial task loop
  obtain ⟨b0, tb0, l1, -, l3, l4⟩ := loopBuffer_sumLike cb0 a0 amounts skip ntasks fuel len s4
    (by rw [hs0, hr0]; omega) hfuel (by rw [hs0]; omega) s3 s6
  rw [hs0, hr0, s5] at l4
  simp only [Nat.mod_one, decide_True, List.filter_true] at l4
  have hlb0 : loopBuffer cb0 a0 ntasks fuel = b0.buffer := by simp [loopBuffer, l1]
  obtain ⟨s, trs, r1, r2⟩ := runAllTasks_buffer cb0 a0 ntasks fuel b0 tb0 s1 l1
  rw [l3, s2] at r2
  simp only [Bool.not_true, Bool.false_and, Bool.false_eq_true, if_false] at r2
  -- the task loop of worker r
  have hw : ∀ r, r < k → ∃ b tb,
      taskLoop (cbs r) (strideOf (cbs r) (acts r)) ntasks fuel (rankOf (cbs r) (acts r))
        (acts r, []) = Except.ok (b, tb) ∧ b.serial = false ∧
      loopBuffer (cbs r) (acts r) ntasks fuel = b.buffer ∧
      b.buffer = (List.range len).map (fun e =>
        (((List.range ntasks).filter (fun j => decide (j % k = r))).map
          (fun q => taskAmount fs amounts skip q e)).sum) := by
    intro r hr
    obtain ⟨w1, w2, w3, w4, w5, w6, w7, w8⟩ := hworker r hr
    have hsr : strideOf (cbs r) (acts r) = k := by simp [strideOf, w2, w3]
    have hrr : rankOf (cbs r) (acts r) = r := by simp [rankOf, w2, w4]
    obtain ⟨b, tb, m1, -, m3, m4⟩ := loopBuffer_sumLike (cbs r) (acts r) amounts skip ntasks
      fuel len w6 (by rw [hsr, hrr]; exact hr) hfuel (by rw [hsr]; exact hrange) w5 w8
    rw [hsr, hrr, w7] at m4
    exact ⟨b, tb, m1, by rw [m3, w2], by simp [loopBuffer, m1], m4⟩
  -- the element-wise sum of the workers' buffers
  have htotal : sumBuffers len
      ((List.range k).map (fun q => loopBuffer (cbs q) (acts q) ntasks fuel)) = s.buffer := by
    rw [r2, l4]
    unfold sumBuffers
    apply List.map_congr_left
    intro e he
    have he2 : e < len := List.mem_range.mp he
    rw [List.map_map, ← sum_by_residue k hk (fun q => taskAmount fs amounts skip q e)
      (List.range ntasks)]
    congr 1
    apply List.map_congr_left
    intro r hr
    obtain ⟨b, tb, -, -, n3, n4⟩ := hw r (List.mem_range.mp hr)
    simp only [Function.comp, n3, n4, List.getD_eq_getElem?_getD, List.getElem?_map,
      List.getElem?_range he2]
    rfl
  refine ⟨s, trs, r1, htotal, by rw [hlb0, r2], ?_⟩
  intro r hr
  obtain ⟨w1, -, -, -, -, -, -, -⟩ := hworker r hr
  obtain ⟨b, tb, n1, n2, n3, n4⟩ := hw r hr
  obtain ⟨w, trw, q1, q2⟩ := runAllTasks_buffer (cbs r) (acts r) ntasks fuel b tb w1 n1
  refine ⟨w, trw, q1, ?_⟩
  rw [q2, n2]
  by_cases hl : 0 < b.buffer.length
  · simp only [Bool.not_false, Bool.true_and, hl, decide_True, if_true]
    rw [← n3, hSum r hr, htotal]
  · simp only [Bool.not_false, Bool.true_and, hl, decide_False, Bool.false_eq_true, if_false]
    have hbn : b.buffer = [] := List.eq_nil_of_length_eq_zero (by omega)
    have hlen0 : len = 0 := by
      have := congrArg List.length n4
      rw [hbn] at this
      simpa using this.symm
    rw [hbn, r2, l4, hlen0]
    rfl

/-- C11: one sum vessel, three tasks of values 1, 2, 3, and a buffer in which
an earlier pass left 5, which `runAllTasks` does not clear (its
`buffer.assign(buffer.size(),0.0)` is commented out). The serial pass ends
with 11; of two workers, rank 0 holds `5 + 1 + 3` and rank 1 holds `5 + 2`
when their loops end, their sum is 16, and with `comm.Sum` returning it the
parallel pass ends with 16: the summed buffers of the workers are not the
buffer of the serial pass. -/
theorem parallel_sum_differs_uncleared :
    (runAllTasks (sumCallbacks 1 0 []) (sumAction true 5) 3 3).toOption.map
      (fun r => r.1.buffer) = some [11] ∧
    loopBuffer (sumCallbacks 2 0 [16]) (sumAction false 5) 3 3 = [9] ∧
    loopBuffer (sumCallbacks 2 1 [16]) (sumAction false 5) 3 3 = [7] ∧
    sumBuffers 1 [loopBuffer (sumCallbacks 2 0 [16]) (sumAction false 5) 3 3,
      loopBuffer (sumCallbacks 2 1 [16]) (sumAction false 5) 3 3] = [16] ∧
    (runAllTasks (sumCallbacks 2 0 [16]) (sumAction false 5) 3 3).toOption.map
      (fun r => r.1.buffer) = some [16] := by
  refine ⟨by decide, by decide, by decide, by decide, by decide⟩

/-- Two workers and three tasks of values 1, 2, 3 on one sum vessel, all from
a zero buffer: rank 0 holds 4, rank 1 holds 2, and the serial
pass and both parallel passes end with 6. -/
theorem parallel_buffers_sum_to_serial_witness :
    ∃ s trs, runAllTasks (sumCallbacks 1 0 []) (sumAction true 0) 3 3 = Except.ok (s, trs) ∧
      s.buffer = [6] ∧
      sumBuffers 1 ((List.range 2).map (fun q =>
        loopBuffer (sumCallbacks 2 q [6]) (sumAction false 0) 3 3)) = s.buffer ∧
      ∀ r, r < 2 → ∃ w trw,
        runAllTasks (sumCallbacks 2 r [6]) (sumAction false 0) 3 3 = Except.ok (w, trw) ∧
        w.buffer = s.buffer := by
  have hlike : ∀ size rank total, SumLike (sumCallbacks size rank total)
      (fun _ i => [(0, (i : Int) + 1)]) (fun _ => false) :=
    fun _ _ _ => ⟨fun _ _ => rfl, fun _ _ _ _ _ => ⟨rfl, rfl⟩⟩
  obtain ⟨s, trs, h1, h2, h3, h4⟩ := parallel_buffers_sum_to_serial 2 3 3 1 [⟨0, 1, ()⟩]
    (fun _ i => [(0, (i : Int) + 1)]) (fun _ => false)
    (fun r => sumCallbacks 2 r [6]) (fun _ => sumAction false 0)
    (sumCallbacks 1 0 []) (sumAction true 0) (by decide) (by decide) (by decide)
    ⟨rfl, rfl, Or.inr (fun _ => rfl), hlike 1 0 [], rfl, rfl⟩
    (fun r _ => ⟨rfl, rfl, rfl, rfl, Or.inr (fun _ => rfl), hlike 2 r [6], rfl, rfl⟩)
    (fun r _ => by
      show ([6] : List Int) = _
      decide)
  refine ⟨s, trs, h1, ?_, h2, h4⟩
  rw [← h3]
  decide

end ActionWithVessel
end vesselbase

namespace ColvarAlphaRMSD

theorem fillNlist_length : ∀ (n j accum : Nat) (nlist : List Nat),
    (fillNlist n j accum nlist).length = nlist.length := by
  intro n
  induction n with
  | zero => intro j accum nlist; rfl
  | succ n ih => intro j accum nlist; simp [fillNlist, ih]

theorem fillNlist_getElem? : ∀ (n j accum : Nat) (nlist : List Nat) (e : Nat),
    (fillNlist n j accum nlist)[e]? =
      if j ≤ e ∧ e < j + n ∧ e < nlist.length then some ((accum + e) % UNSIGNED_RANGE)
      else nlist[e]? := by
  intro n
  induction n with
  | zero =>
    intro j accum nlist e
    simp only [fillNlist]
    rw [if_neg (by omega)]
  | succ n ih =>
    intro j accum nlist e
    simp only [fillNlist]
    rw [ih, List.length_set, List.getElem?_set]
    by_cases hje : j = e
    · subst hje
      have h1 : ¬ (j + 1 ≤ j ∧ j < j + 1 + n ∧ j < nlist.length) := by omega
      by_cases hl : j < nlist.length
      · have h2 : j ≤ j ∧ j < j + (n + 1) ∧ j < nlist.length := ⟨Nat.le_refl _, by omega, hl⟩
        simp [h1, h2, hl]
      · have h2 : ¬ (j ≤ j ∧ j < j + (n + 1) ∧ j < nlist.length) := by omega
        have h3 : nlist[j]? = none := List.getElem?_eq_none (by omega)
        simp [h1, h2, hl, h3]
    · by_cases hc : j + 1 ≤ e ∧ e < j + 1 + n ∧ e < nlist.length
      · have h2 : j ≤ e ∧ e < j + (n + 1) ∧ e < nlist.length := by omega
        simp [hc, h2]
      · have h2 : ¬ (j ≤ e ∧ e < j + (n + 1) ∧ e < nlist.length) := by omega
        simp [hc, h2, hje]

theorem fillNlist_thirty (accum : Nat) (nlist : List Nat) (hlen : nlist.length = 30)
    (hrange : accum + 30 ≤ UNSIGNED_RANGE) :
    fillNlist 30 0 accum nlist = (List.range 30).map (fun k => accum + k) := by
  apply List.ext_getElem?
  intro e
  rw [fillNlist_getElem?, hlen, List.getElem?_map]
  by_cases he : e < 30
  · have h1 : 0 ≤ e ∧ e < 0 + 30 ∧ e < 30 := by omega
    rw [if_pos h1, List.getElem?_range he, Nat.mod_eq_of_lt (by omega)]
    rfl
  · have h1 : ¬ (0 ≤ e ∧ e < 0 + 30 ∧ e < 30) := by omega
    have h2 : (List.range 30)[e]? = none := List.getElem?_eq_none (by simp; omega)
    have h3 : nlist[e]? = none := List.getElem?_eq_none (by omega)
    rw [if_neg h1, h2, h3]
    rfl

theorem residueLoop_windows (nprevious : Nat) :
    ∀ (n ires : Nat) (nlist : List Nat) (colvars : List (List Nat)),
      nlist.length = 30 → nprevious + 5 * (ires + n) + 25 ≤ UNSIGNED_RANGE →
      ∃ nlist1, nlist1.length = 30 ∧
        residueLoop nprevious n ires (nlist, colvars) =
          (nlist1, colvars ++ (List.range n).map (fun m =>
            (List.range 30).map (fun k => nprevious + 5 * (ires + m) + k))) := by
  intro n
  induction n with
  | zero => intro ires nlist colvars hlen _; exact ⟨nlist, hlen, by simp [residueLoop]⟩
  | succ n ih =>
    intro ires nlist colvars hlen hrange
    have h1 : 5 * ires % UNSIGNED_RANGE = 5 * ires := Nat.mod_eq_of_lt (by omega)
    have h2 : (nprevious + 5 * ires) % UNSIGNED_RANGE = nprevious + 5 * ires :=
      Nat.mod_eq_of_lt (by omega)
    have h3 := fillNlist_thirty (nprevious + 5 * ires) nlist hlen (by omega)
    simp only [residueLoop, h1, h2, h3]
    obtain ⟨nlist1, hl1, hres⟩ := ih (ires + 1)
      ((List.range 30).map (fun k => nprevious + 5 * ires + k))
      (colvars ++ [(List.range 30).map (fun k => nprevious + 5 * ires + k)])
      (by simp) (by omega)
    refine ⟨nlist1, hl1, ?_⟩
    have e1 : ∀ m, ires + 1 + m = ires + (m + 1) := by intro m; omega
    rw [hres, List.range_succ_eq_map n, List.map_cons, List.map_map, List.append_assoc]
    simp only [e1, Function.comp_def, Nat.add_zero, List.singleton_append, Nat.succ_eq_add_one]

theorem backboneLoop_good_none : ∀ (chains : List Nat) (nprevious : Nat)
    (st : List Nat × List (List Nat)), (∀ c ∈ chains, goodChain c) →
    (backboneLoop chains nprevious st).2 = none := by
  intro chains
  induction chains with
  | nil => intro nprevious st _; rfl
  | cons c rest ih =>
    intro nprevious st hgood
    have hc : goodChain c := hgood c (List.mem_cons_self _ _)
    have h30 : ¬ c < 30 := by have := hc.1; omega
    have h5 : ¬ c % 5 ≠ 0 := by have := hc.2; omega
    simp only [backboneLoop, if_neg h30, if_neg h5]
    exact ih _ _ (fun d hd => hgood d (List.mem_cons_of_mem _ hd))

theorem backboneLoop_fails : ∀ (chains : List Nat) (nprevious : Nat)
    (st : List Nat × List (List Nat)), (∃ c ∈ chains, c < 30) →
    ∃ e, (backboneLoop chains nprevious st).2 = some e := by
  intro chains
  induction chains with
  | nil => intro nprevious st h; obtain ⟨c, hc, _⟩ := h; cases hc
  | cons c rest ih =>
    intro nprevious st h
    by_cases h30 : c < 30
    · simp only [backboneLoop, if_pos h30]
      exact ⟨_, rfl⟩
    · by_cases h5 : c % 5 ≠ 0
      · simp only [backboneLoop, if_neg h30, if_pos h5]
        exact ⟨_, rfl⟩
      · simp only [backboneLoop, if_neg h30, if_neg h5]
        apply ih
        obtain ⟨d, hd, hlt⟩ := h
        rcases List.mem_cons.mp hd with hdc | hdr
        · subst hdc; exact absurd hlt h30
        · exact ⟨d, hdr, hlt⟩

theorem backboneLoop_first_short (c : Nat) (post : List Nat) (hc : c < 30) :
    ∀ (pre : List Nat) (nprevious : Nat) (st : List Nat × List (List Nat)),
      (∀ d ∈ pre, goodChain d) →
      backboneLoop (pre ++ c :: post) nprevious st =
        ((backboneLoop pre nprevious st).1, some (Abort.error notLongEnough)) := by
  intro pre
  induction pre with
  | nil => intro nprevious st _; simp only [List.nil_append, backboneLoop, if_pos hc]
  | cons d rest ih =>
    intro nprevious st hgood
    have hd : goodChain d := hgood d (List.mem_cons_self _ _)
    have h30 : ¬ d < 30 := by have := hd.1; omega
    have h5 : ¬ d % 5 ≠ 0 := by have := hd.2; omega
    simp only [List.cons_append, backboneLoop, if_neg h30, if_neg h5]
    exact ih _ _ (fun e he => hgood e (List.mem_cons_of_mem _ he))

theorem backboneLoop_windows : ∀ (chains : List Nat) (nprevious : Nat) (nlist : List Nat)
    (colvars : List (List Nat)), (∀ c ∈ chains, goodChain c) →
    nprevious + chains.sum < UNSIGNED_RANGE → nlist.length = 30 →
    backboneLoop chains nprevious (nlist, colvars) =
      (colvars ++ allWindows chains nprevious, none) := by
  intro chains
  induction chains with
  | nil => intro nprevious nlist colvars _ _ _; simp [backboneLoop, allWindows]
  | cons c rest ih =>
    intro nprevious nlist colvars hgood hrange hlen
    have hc : goodChain c := hgood c (List.mem_cons_self _ _)
    have h30 : ¬ c < 30 := by have := hc.1; omega
    have h5 : ¬ c % 5 ≠ 0 := by have := hc.2; omega
    rw [List.sum_cons] at hrange
    have hn : (c / 5 + UNSIGNED_RANGE - 5) % UNSIGNED_RANGE = c / 5 - 5 := by
      have := hc.1
      simp only [UNSIGNED_RANGE] at hrange ⊢
      omega
    have hp : (nprevious + c) % UNSIGNED_RANGE = nprevious + c := Nat.mod_eq_of_lt (by omega)
    obtain ⟨nlist1, hl1, hres⟩ := residueLoop_windows nprevious (c / 5 - 5) 0 nlist colvars hlen
      (by have := hc.1; have := hc.2; omega)
    simp only [backboneLoop, if_neg h30, if_neg h5, hn, hp, hres]
    rw [ih (nprevious + c) nlist1 _ (fun d hd => hgood d (List.mem_cons_of_mem _ hd))
      (by omega) hl1]
    simp only [allWindows, chainWindows, Nat.zero_add, List.append_assoc]

theorem length_allWindows : ∀ (chains : List Nat) (o : Nat),
    (allWindows chains o).length = (chains.map (fun c => c / 5 - 5)).sum := by
  intro chains
  induction chains with
  | nil => intro o; rfl
  | cons c rest ih => intro o; simp [allWindows, chainWindows, ih]

theorem allWindows_append : ∀ (pre post : List Nat) (o : Nat),
    allWindows (pre ++ post) o = allWindows pre o ++ allWindows post (o + pre.sum) := by
  intro pre
  induction pre with
  | nil => intro post o; simp [allWindows]
  | cons c rest ih =>
    intro post o
    rw [List.cons_append]
    simp only [allWindows]
    rw [ih, List.sum_cons, List.append_assoc, Nat.add_assoc]

theorem chainWindows_inside (o c : Nat) (hc : goodChain c) :
    ∀ w ∈ chainWindows o c, ∀ x ∈ w, o ≤ x ∧ x < o + c := by
  intro w hw x hx
  simp only [chainWindows, List.mem_map, List.mem_range] at hw
  obtain ⟨ires, hires, rfl⟩ := hw
  simp only [List.mem_map, List.mem_range] at hx
  obtain ⟨k, hk, rfl⟩ := hx
  have := hc.1
  have := hc.2
  omega

theorem allWindows_inside : ∀ (chains : List Nat) (o : Nat), (∀ c ∈ chains, goodChain c) →
    ∀ w ∈ allWindows chains o, ∀ x ∈ w, o ≤ x ∧ x < o + chains.sum := by
  intro chains
  induction chains with
  | nil => intro o _ w hw; cases hw
  | cons c rest ih =>
    intro o hgood w hw x hx
    simp only [allWindows, List.mem_append] at hw
    rw [List.sum_cons]
    rcases hw with hw | hw
    · have := chainWindows_inside o c (hgood c (List.mem_cons_self _ _)) w hw x hx
      omega
    · have := ih (o + c) (fun d hd => hgood d (List.mem_cons_of_mem _ hd)) w hw x hx
      omega

theorem backboneLoop_before_short (c : Nat) (post : List Nat) (hc : c < 30) :
    ∀ (pre : List Nat) (nprevious : Nat) (st : List Nat × List (List Nat)),
      (backboneLoop (pre ++ c :: post) nprevious st).1 = (backboneLoop pre nprevious st).1 := by
  intro pre
  induction pre with
  | nil => intro nprevious st; simp only [List.nil_append, backboneLoop, if_pos hc]
  | cons d rest ih =>
    intro nprevious st
    rw [List.cons_append]
    by_cases h30 : d < 30
    · simp only [backboneLoop, if_pos h30]
    · by_cases h5 : d % 5 ≠ 0
      · simp only [backboneLoop, if_neg h30, if_pos h5]
      · simp only [backboneLoop, if_neg h30, if_neg h5]
        exact ih _ _

theorem window_head (a : Nat) : ((List.range 30).map (fun k => a + k)).headD 0 = a := rfl

theorem mem_allWindows_shape : ∀ (chains : List Nat) (o : Nat) (w : List Nat),
    w ∈ allWindows chains o → ∃ a, w = (List.range 30).map (fun k => a + k) := by
  intro chains
  induction chains with
  | nil => intro o w hw; cases hw
  | cons c rest ih =>
    intro o w hw
    simp only [allWindows, List.mem_append] at hw
    rcases hw with hw | hw
    · simp only [chainWindows, List.mem_map, List.mem_range] at hw
      obtain ⟨ires, _, rfl⟩ := hw
      exact ⟨o + 5 * ires, rfl⟩
    · exact ih _ _ hw

theorem allWindows_head_inside (chains : List Nat) (o : Nat)
    (hgood : ∀ c ∈ chains, goodChain c) (w : List Nat) (hw : w ∈ allWindows chains o) :
    o ≤ w.headD 0 ∧ w.headD 0 < o + chains.sum := by
  obtain ⟨a, ha⟩ := mem_allWindows_shape chains o w hw
  have hmem : a ∈ w := by
    rw [ha]
    exact List.mem_map.mpr ⟨0, by simp, rfl⟩
  have hhead : w.headD 0 = a := by rw [ha]; exact window_head a
  rw [hhead]
  exact allWindows_inside chains o hgood w hw a hmem

theorem chainWindows_sorted (o c : Nat) :
    List.Pairwise (fun w1 w2 : List Nat => w1.headD 0 < w2.headD 0) (chainWindows o c) := by
  unfold chainWindows
  rw [List.pairwise_map]
  refine List.Pairwise.imp ?_ (List.pairwise_lt_range (c / 5 - 5))
  intro a b hab
  rw [window_head, window_head]
  omega

theorem allWindows_sorted : ∀ (chains : List Nat) (o : Nat), (∀ c ∈ chains, goodChain c) →
    List.Pairwise (fun w1 w2 : List Nat => w1.headD 0 < w2.headD 0) (allWindows chains o) := by
  intro chains
  induction chains with
  | nil => intro o _; exact List.Pairwise.nil
  | cons c rest ih =>
    intro o hgood
    have hrest : ∀ d ∈ rest, goodChain d := fun d hd => hgood d (List.mem_cons_of_mem _ hd)
    simp only [allWindows]
    rw [List.pairwise_append]
    refine ⟨chainWindows_sorted o c, ih (o + c) hrest, ?_⟩
    intro w1 h1 w2 h2
    have hone : w1 ∈ allWindows [c] o := by simpa [allWindows] using h1
    have b1 := allWindows_head_inside [c] o
      (fun d hd => hgood d (by rw [List.mem_singleton.mp hd]; exact List.mem_cons_self _ _))
      w1 hone
    have b2 := allWindows_head_inside rest (o + c) hrest w2 h2
    simp only [List.sum_cons, List.sum_nil, Nat.add_zero] at b1
    omega

/-- C21: the constructor of the alpha-helix collective variable ends in an abort
whenever some chain has fewer than 30 atoms. The windows it has added by then
are those that the chains before the short one give on their own, so none of
the short chain; when the chains before it are all accepted, the abort is the
call to `error` and (their lengths adding up within the range of `unsigned`)
the windows are all the windows of these earlier chains. When every chain has
at least 30 atoms and a multiple of 5 of them, there is no abort. -/
theorem construct_short_chain (chains : List Nat) :
    ((∃ c ∈ chains, c < 30) → ∃ e, (construct chains).2 = some e) ∧
    (∀ pre c post, chains = pre ++ c :: post → c < 30 →
      (construct chains).1 = (construct pre).1 ∧
      ((∀ d ∈ pre, goodChain d) →
        (construct chains).2 = some (Abort.error notLongEnough) ∧
        (pre.sum < UNSIGNED_RANGE → (construct chains).1 = allWindows pre 0))) ∧
    ((∀ c ∈ chains, goodChain c) → (construct chains).2 = none) := by
  refine ⟨fun h => backboneLoop_fails chains 0 _ h, ?_,
    fun h => backboneLoop_good_none chains 0 _ h⟩
  intro pre c post hch hc
  subst hch
  refine ⟨backboneLoop_before_short c post hc pre 0 _, ?_⟩
  intro hgood
  have h := backboneLoop_first_short c post hc pre 0 (List.replicate 30 0, []) hgood
  refine ⟨by unfold construct; rw [h], ?_⟩
  intro hrange
  have hw := backboneLoop_windows pre 0 (List.replicate 30 0) [] hgood
    (by omega) (by simp)
  unfold construct
  rw [h, hw]
  rfl

/-- C21 at the chains 35, 10, 30: the abort is the call to `error`, the two
windows of the first chain are there and no other; the chains 30, 40 give no
abort. -/
theorem construct_short_chain_witness :
    (construct [35, 10, 30]).2 = some (Abort.error notLongEnough) ∧
    (construct [35, 10, 30]).1 = allWindows [35] 0 ∧
    (construct [30, 40]).2 = none :=
  ⟨(((construct_short_chain [35, 10, 30]).2.1 [35] 10 [30] rfl (by decide)).2
      (by decide)).1,
    (((construct_short_chain [35, 10, 30]).2.1 [35] 10 [30] rfl (by decide)).2
      (by decide)).2 (by decide),
    (construct_short_chain [30, 40]).2.2 (by decide)⟩

/-- C22: for chains that each have at least 30 atoms and a multiple of 5 of
them (their lengths adding up within the range of `unsigned`), the constructor
ends without abort and adds the windows of `allWindows`: as many as the sum
over the chains of `chain/5 - 5`; for a chain of `c` atoms that starts at atom
offset `o` (the sum of the chains before it) they are, between the windows of
the earlier and of the later chains, one window for each residue offset
`ires < c/5 - 5`, made of the 30 indices `o+5*ires`, ..., `o+5*ires+29`, every
one of them inside `[o, o+c)`; and the windows come by increasing start. -/
theorem construct_windows (chains : List Nat) (hgood : ∀ c ∈ chains, goodChain c)
    (hrange : chains.sum < UNSIGNED_RANGE) :
    construct chains = (allWindows chains 0, none) ∧
    (construct chains).1.length = (chains.map (fun c => c / 5 - 5)).sum ∧
    (∀ pre c post, chains = pre ++ c :: post →
      (construct chains).1 =
        allWindows pre 0 ++ chainWindows pre.sum c ++ allWindows post (pre.sum + c) ∧
      (chainWindows pre.sum c).length = c / 5 - 5 ∧
      (∀ ires, ires < c / 5 - 5 → (chainWindows pre.sum c)[ires]? =
        some ((List.range 30).map (fun k => pre.sum + 5 * ires + k))) ∧
      (∀ w ∈ chainWindows pre.sum c, ∀ x ∈ w, pre.sum ≤ x ∧ x < pre.sum + c)) ∧
    List.Sorted (fun a b : Nat => a < b) ((construct chains).1.map (fun w => w.headD 0)) := by
  have hw : construct chains = (allWindows chains 0, none) := by
    have h := backboneLoop_windows chains 0 (List.replicate 30 0) [] hgood
      (by omega) (by simp)
    unfold construct
    rw [h]
    rfl
  refine ⟨hw, ?_, ?_, ?_⟩
  · rw [hw]
    exact length_allWindows chains 0
  · intro pre c post hch
    subst hch
    have hc : goodChain c := hgood c (by simp)
    refine ⟨?_, by simp [chainWindows], ?_, chainWindows_inside pre.sum c hc⟩
    · rw [hw, allWindows_append]
      simp only [allWindows, Nat.zero_add, List.append_assoc]
    · intro ires hires
      unfold chainWindows
      rw [List.getElem?_map, List.getElem?_range hires]
      rfl
  · rw [hw]
    show List.Pairwise _ _
    rw [List.pairwise_map]
    exact allWindows_sorted chains 0 hgood

/-- C22 at the chains 30, 40: four windows, starting at the atoms 0, 30, 35
and 40. -/
theorem construct_windows_witness :
    (construct [30, 40]).1.length = 4 ∧
    (construct [30, 40]).1.map (fun w => w.headD 0) = [0, 30, 35, 40] :=
  ⟨(construct_windows [30, 40] (by decide) (by decide)).2.1,
    by rw [(construct_windows [30, 40] (by decide) (by decide)).1]; rfl⟩

end ColvarAlphaRMSD
end PLMD
